import Mathlib

/-!
# runcontainer: the configuration-to-invocation translator

A shallow embedding of `runcontainer/docker.go`.  Go strings are lists of
characters (`Str`); `len` is the byte length of the UTF-8 encoding, as Go's
`len` is.  Everything the program reads from its host (working directory,
user, environment listing, the Docker daemon, the outcome of subprocesses) is
a field of `Host` or `World`.  A Go panic is the result `none`.
-/

namespace Runcontainer

/-- A Go string, as the list of its characters. -/
abbrev Str := List Char

/-- Go `len(s)`: the number of bytes of the UTF-8 encoding. -/
def len (s : Str) : Nat := (s.map Char.utf8Size).sum

/-! ## The `strings` package, as far as the program uses it -/

/-- Go `strings.HasPrefix`. -/
def HasPrefix (s pre : Str) : Bool := pre.isPrefixOf s

/-- Go `strings.TrimPrefix`. -/
def TrimPrefix (s pre : Str) : Str :=
  if HasPrefix s pre then s.drop pre.length else s

/-- Go `strings.Contains`. -/
def Contains : Str → Str → Bool
  | [], sub => sub.isEmpty
  | c :: cs, sub => sub.isPrefixOf (c :: cs) || Contains cs sub

/-- Go `strings.Split(s, sep)` for a separator of one character (the program
splits on `"/"`, `" "`, `"="` and `"\\"` only).  The result is never empty. -/
def Split : Str → Char → List Str
  | [], _ => [[]]
  | c :: cs, sep =>
    if c = sep then [] :: Split cs sep
    else match Split cs sep with
      | [] => [[c]]
      | w :: ws => (c :: w) :: ws

/-- Go `strings.Count(s, sep)` for a separator of one character. -/
def Count (s : Str) (sep : Char) : Nat := s.count sep

/-- Go `strings.Replace(s, old, new, 1)`: the first occurrence of `old` is
replaced; an empty `old` matches at the beginning of the string. -/
def ReplaceOnce : Str → Str → Str → Str
  | [], old, new => if old.isEmpty then new else []
  | c :: cs, old, new =>
    if old.isPrefixOf (c :: cs) then new ++ (c :: cs).drop old.length
    else c :: ReplaceOnce cs old new

/-- Go `unicode.ToUpper` on one rune, as far as it can change a test against
an ASCII needle: ASCII letters, and the two non-ASCII runes whose upper case
is ASCII (dotless i and long s).  Other runes are left as they are. -/
def toUpperRune (c : Char) : Char :=
  if c = Char.ofNat 0x131 then 'I'
  else if c = Char.ofNat 0x17F then 'S'
  else c.toUpper

/-- Go `strings.ToUpper`. -/
def ToUpper (s : Str) : Str := s.map toUpperRune

/-- Go `unicode.IsSpace`. -/
def isSpace (c : Char) : Bool :=
  let n := c.toNat
  (9 ≤ n && n ≤ 13) || n = 0x20 || n = 0x85 || n = 0xA0 || n = 0x1680 ||
  (0x2000 ≤ n && n ≤ 0x200A) || n = 0x2028 || n = 0x2029 || n = 0x202F ||
  n = 0x205F || n = 0x3000

/-- Go `strings.TrimSpace`. -/
def TrimSpace (s : Str) : Str :=
  ((s.dropWhile isSpace).reverse.dropWhile isSpace).reverse

/-! ## Profiles -/

/-- The Go struct `DockerConfig`.  `TempDirMountLocation` is a string type in
the source (`MountLocation`), `Environment` a map. -/
structure DockerConfig where
  Image : Str
  ImageTag : Str
  EntryPoint : Str
  MountPoint : Str
  DockerInteractive : Bool
  WithDockerMount : Bool
  WithCurrentUser : Bool
  MountHomeDirectory : Bool
  DockerOptions : List Str
  TempDirMountLocation : Str
  Environment : List (Str × Str)
  RunBeforeCommands : List Str
  RunAfterCommands : List Str

def MountLocNone : Str := "none".toList
def MountLocHost : Str := "host".toList
def MountLocVolume : Str := "volume".toList

def dockerMountImagePath : Str := "/var/runcontainer".toList
def dockerVolumeName : Str := "tgf".toList

/-- The method `GetImageName` of `DockerConfig`. -/
def DockerConfig.GetImageName (config : DockerConfig) : Str :=
  let suffix : Str := if config.ImageTag ≠ [] then [] ++ config.ImageTag else []
  if len suffix > 1 then config.Image ++ ":".toList ++ suffix
  else config.Image

/-! ## The host -/

/-- The Go struct `user.User`, as far as `Execute` reads it. -/
structure User where
  Uid : Str
  Gid : Str
  Username : Str
  HomeDir : Str

/-- What `Execute` reads from the machine it runs on while it builds the
argument vector. -/
structure Host where
  /-- `runtime.GOOS == "windows"` -/
  windows : Bool
  /-- `os.Getenv("DOCKER_MACHINE_NAME")` -/
  dockerMachineName : Str
  /-- `os.Getwd()`, `none` when it fails -/
  getwd : Option Str
  /-- `filepath.EvalSymlinks`, `none` when it fails -/
  evalSymlinks : Str → Option Str
  /-- `filepath.VolumeName` of a Windows host -/
  volumeNameWindows : Str → Str
  /-- `user.Current()`, `none` when it fails -/
  currentUser : Option User
  /-- `getDockerMountArgs()`, a fixed fragment defined per platform -/
  dockerMountArgs : List Str
  /-- `filepath.Base` -/
  base : Str → Str
  /-- `os.TempDir()` -/
  tempDir : Str
  /-- `filepath.Join(dir, "runcontainer-cache")` -/
  joinCache : Str → Str
  /-- `getImageSummary`: `none` for an error, `some none` for the nil summary
  returned when the daemon lists no or several images, else the image ID -/
  imageSummary : Str → Option (Option Str)
  /-- `inspectImage(id)`, reduced to `Config.User`; `none` for an error -/
  inspectImageUser : Str → Option Str
  /-- `os.Environ()` as `getEnviron` finds it, that is after `Execute` has
  applied the profile's environment to the process -/
  environ : List Str

/-- Go `filepath.ToSlash`. -/
def ToSlash (host : Host) (path : Str) : Str :=
  if host.windows then path.map (fun c => if c = '\\' then '/' else c) else path

/-- Go `filepath.VolumeName`: empty unless the host is Windows. -/
def VolumeName (host : Host) (path : Str) : Str :=
  if host.windows then host.volumeNameWindows path else []

/-- The function `getCwd`: the path and the error it returns (`none` is the
nil error). -/
def getCwd (host : Host) : Str × Option Str :=
  match host.getwd with
  | none => ([], none)
  | some cwd =>
    match host.evalSymlinks cwd with
    | none => ([], none)
    | some cwd => (ToSlash host cwd, none)

/-- The path converter `getPathConversionFunction` returns, applied to a
path.  In the legacy mode the source slices bytes (`path[:1]`, `path[2:]`):
the result is `none` when the path is shorter than two bytes (a panic) or
when a slice would cut a rune of several bytes. -/
def convertDrive (host : Host) (path : Str) : Option Str :=
  if !host.windows || host.dockerMachineName = [] then some path
  else match path with
    | a :: b :: rest =>
      if a.utf8Size = 1 ∧ b.utf8Size = 1 then
        some ("/".toList ++ ToUpper [a] ++ rest)
      else none
    | _ => none

/-- The function `listContainsElement`. -/
def listContainsElement : List Str → Str → Bool
  | [], _ => false
  | item :: list, element =>
    if item = element then true else listContainsElement list element

/-- The names the `switch` of `getEnviron` drops. -/
def droppedNames : List Str :=
  ["_".toList, "PWD".toList, "PS1".toList, "OLDPWD".toList, "TMPDIR".toList,
   "PROMPT".toList, "SHELL".toList, "SH".toList, "ZSH".toList, "HOME".toList,
   "LANG".toList, "LC_CTYPE".toList, "DISPLAY".toList, "TERM".toList]

/-- Go `os.PathSeparator`. -/
def PathSeparator (host : Host) : Char := if host.windows then '\\' else '/'

/-- One turn of the loop of `getEnviron`: the arguments appended for the
entry `env`; `none` when `split[1]` is read from an entry without `=`. -/
def getEnvironEntry (host : Host) (env : Str) : Option (List Str) :=
  let split := Split env '='
  let varName := TrimSpace (split.headD [])
  let varUpper := ToUpper varName
  let emit : Option (List Str) :=
    if varName ∈ droppedNames then some [] else some ["-e".toList, split.headD []]
  let afterPath : Option (List Str) :=
    if host.windows then
      match split.get? 1 with
      | none => none
      | some value =>
        if Contains (ToUpper value) "C:\\".toList || Contains (ToUpper value) "D:\\".toList
            || Contains (ToUpper value) "E:\\".toList || Contains varUpper "WIN".toList then
          some []
        else emit
    else emit
  if varName = [] then some []
  else if Contains varUpper "PATH".toList then
    match split.get? 1 with
    | none => none
    | some value => if HasPrefix value [PathSeparator host] then some [] else afterPath
  else afterPath

/-- The function `getEnviron`; its argument `noHome` is not read. -/
def getEnviron (host : Host) (_noHome : Bool) : Option (List Str) :=
  host.environ.foldl
    (fun result env =>
      match result, getEnvironEntry host env with
      | some r, some e => some (r ++ e)
      | _, _ => none)
    (some [])

/-! ## `Execute`: building the argument vector -/

/-- Lines 85-97 of `Execute`: `run`, the interactive flag, the mount of the
root folder and the working directory. -/
def DockerConfig.mountArgs (host : Host) (config : DockerConfig) (cwd : Str) :
    Option (List Str) :=
  let currentDrive := VolumeName host cwd ++ "/".toList
  let rootFolder := (Split (TrimPrefix cwd currentDrive) '/').headD []
  let sourceFolder := "/".toList ++
    ToSlash host (ReplaceOnce (TrimPrefix cwd currentDrive) rootFolder config.MountPoint)
  let dockerArgs := ["run".toList]
  let dockerArgs := if config.DockerInteractive then dockerArgs ++ ["-it".toList] else dockerArgs
  match convertDrive host currentDrive with
  | none => none
  | some drive =>
    some (dockerArgs ++
      ["-v".toList, drive ++ rootFolder ++ ":/".toList ++ config.MountPoint,
       "-w".toList, sourceFolder])

/-- Lines 99-112 of `Execute`: the Docker socket mount and `--user`. -/
def DockerConfig.userArgs (host : Host) (config : DockerConfig) (currentUser : User) :
    List Str :=
  (if config.WithDockerMount then host.dockerMountArgs else []) ++
  (if config.WithCurrentUser && !host.windows then
    ["--user=".toList ++ currentUser.Uid ++ ":".toList ++ currentUser.Gid]
   else [])

/-- Lines 114-152 of `Execute`: the home directory, mounted from the host or
kept in a volume named after the user of the image. -/
def DockerConfig.homeArgs (host : Host) (config : DockerConfig) (currentUser : User) :
    Option (List Str) :=
  if config.MountHomeDirectory then
    let home := ToSlash host currentUser.HomeDir
    let mountingHome := "/home/".toList ++ host.base home
    match convertDrive host home with
    | none => none
    | some drive =>
      some ["-v".toList, drive ++ ":".toList ++ mountingHome,
            "-e".toList, "HOME=".toList ++ mountingHome]
  else if config.TempDirMountLocation ≠ MountLocNone then
    match host.imageSummary config.GetImageName with
    | none => none
    | some none => none
    | some (some id) =>
      match host.inspectImageUser id with
      | none => none
      | some imageUser =>
        let username := if imageUser ≠ [] then imageUser else currentUser.Username
        let username := (Split username '\\').getLastD []
        let homePath := "/home/".toList ++ username
        some ["-e".toList, "HOME=".toList ++ homePath,
              "-v".toList, dockerVolumeName ++ "-".toList ++ username ++ ":".toList ++ homePath]
  else some []

/-- Lines 156-179 of `Execute`: the mount of the temporary directory. -/
def DockerConfig.tempArgs (host : Host) (config : DockerConfig) : Option (List Str) :=
  if config.TempDirMountLocation = MountLocHost then
    match host.evalSymlinks host.tempDir with
    | none => none
    | some tempDir =>
      let temp := ToSlash host (host.joinCache tempDir)
      let tempDrive := VolumeName host temp ++ "/".toList
      let tempFolder := TrimPrefix temp tempDrive
      match convertDrive host tempDrive with
      | none => none
      | some drive =>
        some ["-v".toList, drive ++ tempFolder ++ ":".toList ++ dockerMountImagePath]
  else if config.TempDirMountLocation = MountLocNone then some []
  else if config.TempDirMountLocation = MountLocVolume then
    some ["-v".toList, dockerVolumeName ++ ":".toList ++ dockerMountImagePath]
  else none

/-- Lines 197-199 of `Execute`: every option split at its spaces. -/
def DockerConfig.optionTokens (config : DockerConfig) : List Str :=
  config.DockerOptions.foldl (fun acc opt => acc ++ Split opt ' ') []

/-- The argument vector of `Execute` up to line 199: everything before the
test for `--name`. -/
def DockerConfig.argsBeforeRemove (host : Host) (config : DockerConfig) :
    Option (List Str) :=
  match getCwd host with
  | (_, some _) => none
  | (cwd, none) =>
    match config.mountArgs host cwd, host.currentUser with
    | some mount, some currentUser =>
      match config.homeArgs host currentUser, config.tempArgs host with
      | some home, some temp =>
        some (mount ++ config.userArgs host currentUser ++ home ++
          config.DockerOptions ++ temp ++ config.optionTokens)
      | _, _ => none
    | _, _ => none

/-- Lines 201-204 of `Execute`: `--rm` unless an argument is `--name`. -/
def removeArgs (dockerArgs : List Str) : List Str :=
  if !listContainsElement dockerArgs "--name".toList then ["--rm".toList] else []

/-- The argument vector `dockerArgs` that `Execute` passes to
`exec.Command("docker", ...)`; `none` when `Execute` panics before. -/
def DockerConfig.buildArgs (host : Host) (config : DockerConfig) : Option (List Str) :=
  match config.argsBeforeRemove host, getEnviron host config.MountHomeDirectory with
  | some dockerArgs, some environ =>
    some (dockerArgs ++ removeArgs dockerArgs ++ environ ++
      [config.GetImageName] ++ Split config.EntryPoint ' ')
  | _, _ => none

/-! ## `Execute`: running the commands -/

/-- How one script of `runCommands` ends. -/
inductive ScriptResult where
  /-- `utils.GetCommandFromString` returns an error: nothing is run -/
  | noCommand
  /-- `cmd.Run()` returns an error -/
  | failed
  /-- `cmd.Run()` returns nil -/
  | ok
  deriving DecidableEq, Repr

/-- How `dockerCmd.Run()` ends. -/
inductive DockerRun where
  /-- The process could not be started: `Run` returns an error, nothing is
  captured and `ProcessState` stays nil -/
  | notStarted
  /-- The process ran: its exit status and what it wrote to its error
  output; `Run` returns an error exactly when the status is not 0 -/
  | exited (status : Int) (stderr : Str)
  deriving DecidableEq, Repr

/-- The subprocesses, as `Execute` sees them. -/
structure World where
  script : Str → ScriptResult
  docker : List Str → DockerRun

/-- What `Execute` started, in order. -/
inductive Event where
  | script (s : Str)
  | docker (args : List Str)
  deriving DecidableEq, Repr

/-- The function `runCommands`: whether it returns an error, and the scripts
it ran. -/
def runCommands (world : World) : List Str → Bool × List Event
  | [] => (false, [])
  | script :: commands =>
    match world.script script with
    | .noCommand => (true, [])
    | .failed => (true, [Event.script script])
    | .ok => ((runCommands world commands).1,
              Event.script script :: (runCommands world commands).2)

/-- Lines 219-237 of `Execute`, from the argument vector on: the exit code
and what was started; `none` when the exit status is read from a process
that never started. -/
def DockerConfig.run (world : World) (config : DockerConfig) (dockerArgs : List Str) :
    Option (Int × List Event) :=
  let before := runCommands world config.RunBeforeCommands
  let after := runCommands world config.RunAfterCommands
  if before.1 then some (1, before.2)
  else match world.docker dockerArgs with
    | .notStarted =>
      if after.1 then some (1, before.2 ++ [Event.docker dockerArgs] ++ after.2)
      else none
    | .exited status stderr =>
      if status ≠ 0 ∧ len stderr > 0 then some (1, before.2 ++ [Event.docker dockerArgs])
      else if after.1 then some (1, before.2 ++ [Event.docker dockerArgs] ++ after.2)
      else some (status, before.2 ++ [Event.docker dockerArgs] ++ after.2)

/-- The method `Execute` of `DockerConfig`: the exit code it returns and the
subprocesses it started; `none` when it panics. -/
def DockerConfig.Execute (host : Host) (world : World) (config : DockerConfig) :
    Option (Int × List Event) :=
  match config.buildArgs host with
  | none => none
  | some dockerArgs => config.run world dockerArgs

/-! ## Versions -/

/-- The two functions of the semantic-versioning package that
`CheckVersionRange` calls, `semver.Make` and `semver.ParseRange`; `none` is
a non-nil error. -/
structure Semver (V : Type) where
  Make : Str → Option V
  ParseRange : Str → Option (V → Bool)

/-- The function `CheckVersionRange`: `none` is a non-nil error (returned
together with `false`), `some b` the boolean returned with a nil error. -/
def CheckVersionRange {V : Type} (semver : Semver V) (version compare : Str) :
    Option Bool :=
  let version := if Count version '.' = 1 then version ++ ".9999".toList else version
  match semver.Make version with
  | none => none
  | some v =>
    match semver.ParseRange compare with
    | none => none
    | some comp => some (comp v)

/-- A release version MAJOR.MINOR.PATCH. -/
structure Version where
  Major : Nat
  Minor : Nat
  Patch : Nat
  deriving DecidableEq, Repr

/-- The value of a string of decimal digits. -/
def digitsValue (s : Str) : Nat := s.foldl (fun n c => 10 * n + (c.toNat - 48)) 0

/-- One numeric component of a version: digits only, at least one, no
leading zero, and a value that fits an unsigned 64-bit integer. -/
def versionNumber (s : Str) : Option Nat :=
  if s = [] ∨ !s.all Char.isDigit then none
  else if s.length > 1 ∧ s.head? = some '0' then none
  else if digitsValue s < 2 ^ 64 then some (digitsValue s) else none

/-- Parses MAJOR.MINOR.PATCH. -/
def parseVersion (s : Str) : Option Version :=
  match Split s '.' with
  | [major, minor, patch] =>
    match versionNumber major, versionNumber minor, versionNumber patch with
    | some a, some b, some c => some ⟨a, b, c⟩
    | _, _, _ => none
  | _ => none

/-- The order of versions: by major, then minor, then patch. -/
def Version.compare (v o : Version) : Ordering :=
  if v.Major ≠ o.Major then Ord.compare v.Major o.Major
  else if v.Minor ≠ o.Minor then Ord.compare v.Minor o.Minor
  else Ord.compare v.Patch o.Patch

/-- The comparison a range operator stands for. -/
def parseComparator (op : Str) : Option (Version → Version → Bool) :=
  if op = [] ∨ op = "=".toList ∨ op = "==".toList then some (fun v o => v.compare o = .eq)
  else if op = ">".toList then some (fun v o => v.compare o = .gt)
  else if op = ">=".toList then some (fun v o => v.compare o ≠ .lt)
  else if op = "<".toList then some (fun v o => v.compare o = .lt)
  else if op = "<=".toList then some (fun v o => v.compare o ≠ .gt)
  else if op = "!".toList ∨ op = "!=".toList then some (fun v o => v.compare o ≠ .eq)
  else none

/-- Parses a range of one comparator: an operator, then a version. -/
def parseRange (s : Str) : Option (Version → Bool) :=
  let op := TrimSpace (s.takeWhile (fun c => !c.isDigit))
  let vStr := s.dropWhile (fun c => !c.isDigit)
  match parseComparator op, parseVersion vStr with
  | some c, some o => some (fun v => c v o)
  | _, _ => none

/-- Modelled from the spec: the semantic-versioning package that
`CheckVersionRange` imports (`semver.Make`, `semver.ParseRange`) is not among
the sources.  The spec has versions and ranges parsed by the standard
semantic-versioning grammar, a range being a comparison such as `>=1.2.9999`
evaluated against a three-component version, and a parse failure surfacing as
an error.  The model covers release versions MAJOR.MINOR.PATCH with unsigned
64-bit components and ranges of one comparator; pre-release and build
suffixes and ranges of several comparators are not in it. -/
def semver : Semver Version where
  Make := parseVersion
  ParseRange := parseRange

/-! ## Regular expressions -/

/-- The part of Go's regular expressions that `reVersion` and `reImage` are
written in.  A repetition is over a character class; `alt` prefers its left
branch, as Go's leftmost-first matching does. -/
inductive Regex where
  | empty
  | cls (p : Char → Bool)
  | cat (a b : Regex)
  | alt (a b : Regex)
  | star (p : Char → Bool) (greedy : Bool)
  | group (index : Nat) (a : Regex)
  | bol
  | eol

/-- The captures made so far: group index and captured text. -/
abbrev Captures := List (Nat × Str)

/-- Greedy repetition of a character class: the longest run first. -/
def starGreedy {α : Type} (p : Char → Bool) : Str → (Str → Option α) → Option α
  | [], k => k []
  | c :: cs, k =>
    if p c then
      match starGreedy p cs k with
      | some r => some r
      | none => k (c :: cs)
    else k (c :: cs)

/-- Lazy repetition of a character class: the shortest run first. -/
def starLazy {α : Type} (p : Char → Bool) : Str → (Str → Option α) → Option α
  | [], k => k []
  | c :: cs, k =>
    match k (c :: cs) with
    | some r => some r
    | none => if p c then starLazy p cs k else none

/-- Backtracking match of `re` at the text `s`, which is what is left of an
input of `total` characters; `k` is the rest of the match.  The result is
the text left after the match, and the captures. -/
def Regex.run (total : Nat) : Regex → Str → Captures →
    (Str → Captures → Option (Str × Captures)) → Option (Str × Captures)
  | .empty, s, caps, k => k s caps
  | .cls p, s, caps, k =>
    match s with
    | [] => none
    | c :: cs => if p c then k cs caps else none
  | .cat a b, s, caps, k => Regex.run total a s caps (fun s1 caps1 => Regex.run total b s1 caps1 k)
  | .alt a b, s, caps, k =>
    match Regex.run total a s caps k with
    | some r => some r
    | none => Regex.run total b s caps k
  | .star p greedy, s, caps, k =>
    if greedy then starGreedy p s (fun s1 => k s1 caps) else starLazy p s (fun s1 => k s1 caps)
  | .group index a, s, caps, k =>
    Regex.run total a s caps
      (fun s1 caps1 => k s1 ((index, s.take (s.length - s1.length)) :: caps1))
  | .bol, s, caps, k => if s.length = total then k s caps else none
  | .eol, s, caps, k => if s = [] then k s caps else none

/-- A compiled expression: the expression and Go's `SubexpNames()` (entry 0
is the empty name of the whole match). -/
structure Regexp where
  expr : Regex
  names : List Str

/-- The leftmost match of `re` in an input of `total` characters of which
`s` is left: the matched text and the captures. -/
def Regexp.findFrom (re : Regexp) (total : Nat) : Str → Option (Str × Captures)
  | [] =>
    match re.expr.run total [] [] (fun s1 caps => some (s1, caps)) with
    | some (_, caps) => some ([], caps)
    | none => none
  | c :: cs =>
    match re.expr.run total (c :: cs) [] (fun s1 caps => some (s1, caps)) with
    | some (s1, caps) => some ((c :: cs).take ((c :: cs).length - s1.length), caps)
    | none => Regexp.findFrom re total cs

/-- Go `re.FindStringSubmatch(s)`: the match followed by the text of each
group, empty for a group that took no part; the empty list for no match. -/
def Regexp.FindStringSubmatch (re : Regexp) (s : Str) : List Str :=
  match re.findFrom s.length s with
  | none => []
  | some (whole, caps) =>
    whole :: (List.range (re.names.length - 1)).map (fun i => (caps.lookup (i + 1)).getD [])

def digit (c : Char) : Bool := c.isDigit
def anyChar (c : Char) : Bool := c ≠ '\n'

/-- The pattern of `reVersion`, its group `version` at `index`:
`(?P<version>\d+\.\d+(?:\.\d+){0,1})`. -/
def reVersionExpr (index : Nat) : Regex :=
  .group index
    (.cat (.cat (.cls digit) (.star digit true))
      (.cat (.cls (· = '.'))
        (.cat (.cat (.cls digit) (.star digit true))
          (.alt (.cat (.cls (· = '.')) (.cat (.cls digit) (.star digit true))) .empty))))

def reVersion : Regexp := ⟨reVersionExpr 1, [[], "version".toList]⟩

/-- The pattern of `reImage`:
`^(?P<image>.*?)(?::(?:` version `(?:(?P<sep>[\.-])(?P<spec>.+))?|(?P<fix>.+)))?$`. -/
def reImage : Regexp :=
  ⟨.cat .bol
    (.cat (.group 1 (.star anyChar false))
      (.cat
        (.alt
          (.cat (.cls (· = ':'))
            (.alt
              (.cat (reVersionExpr 2)
                (.alt
                  (.cat (.group 3 (.cls (fun c => c = '.' || c = '-')))
                    (.group 4 (.cat (.cls anyChar) (.star anyChar true))))
                  .empty))
              (.group 5 (.cat (.cls anyChar) (.star anyChar true)))))
          .empty)
        .eol)),
   [[], "image".toList, "version".toList, "sep".toList, "spec".toList, "fix".toList]⟩

/-- A Go `map[string]string`; reading a missing key gives the empty string,
also from the nil map. -/
abbrev StrMap := List (Str × Str)

def StrMap.get (m : StrMap) (key : Str) : Str := (m.lookup key).getD []

def StrMap.set (m : StrMap) (key value : Str) : StrMap :=
  (key, value) :: m.filter (fun e => e.1 ≠ key)

/-- The loop of `multiMatch` from the expression of index `exprIndex` on. -/
def multiMatchFrom (s : Str) : List Regexp → Int → StrMap × Int
  | [], _ => ([], -1)
  | re :: expressions, exprIndex =>
    let mtch := re.FindStringSubmatch s
    if mtch.length ≠ 0 then
      ((re.names.enum.foldl
          (fun results (p : Nat × Str) =>
            if p.2 ≠ [] then results.set p.2 (mtch.getD p.1 []) else results)
          (StrMap.set [] [] (mtch.getD 0 []))),
        exprIndex)
    else multiMatchFrom s expressions (exprIndex + 1)

/-- The function `multiMatch`. -/
def multiMatch (s : Str) (expressions : List Regexp) : StrMap × Int :=
  multiMatchFrom s expressions 0

/-- The version `reImage` captures from a tag, as `prune` reads it. -/
def tagVersion (tag : Str) : Str := (multiMatch tag [reImage]).1.get "version".toList

/-- Lines 448-457 of `prune`: the version of an image, from the marker
`actual` read from the image and, when that is empty, from its tags. -/
def pruneActualVersion (actual : Str) (repoTags : List Str) : Str :=
  if actual = [] then
    repoTags.foldl
      (fun actual tag =>
        if tagVersion tag ≠ [] then
          if len (tagVersion tag) > len actual then tagVersion tag else actual
        else actual)
      actual
  else actual

/-! ## The path converter and the environment filter, entry by entry -/

/-- The function `getPathConversionFunction`: the converter it returns, a
path going to `none` where the converter panics.  In the legacy mode the
source slices bytes (`path[:1]`, `path[2:]`), which asks for two bytes at
least; the model follows it where both slices end between two runes. -/
def getPathConversionFunction (host : Host) : Str → Option Str :=
  if !host.windows || host.dockerMachineName = [] then
    fun path => some path
  else
    fun path =>
      match path with
      | a :: b :: rest =>
        if a.utf8Size = 1 ∧ b.utf8Size = 1 then
          some ("/".toList ++ ToUpper [a] ++ rest)
        else none
      | _ => none

/-- The decision the loop of `getEnviron` takes on one entry: whether it
appends a `-e` pair for it. -/
def retains (host : Host) (env : Str) : Bool :=
  match getEnvironEntry host env with
  | some (_ :: _) => true
  | _ => false

/-! ## `prune` -/

def runContainerImageVersion : Str := "RUNCONTAINER_IMAGE_VERSION".toList

/-- Go `types.ImageSummary`, as far as `prune` reads it. -/
structure ImageSummary where
  ID : Str
  RepoTags : List Str
  deriving DecidableEq, Repr

/-- Go `types.ImageInspect`, as far as the program reads it: `Config.User`
and `ContainerConfig.Env`. -/
structure ImageInspect where
  User : Str
  Env : List Str
  deriving DecidableEq, Repr

/-- What a call of the Docker client returns: a value, or a non-nil error. -/
inductive Reply (α : Type) where
  | ok (value : α)
  | error (err : Str)
  deriving DecidableEq, Repr

/-- A request sent to the Docker daemon. -/
inductive Request where
  | imageList (reference : Str)
  | imageInspect (imageID : Str)
  | imageRemove (image : Str)
  | imagesPrune
  | containersPrune
  deriving DecidableEq, Repr

/-- The Docker daemon behind the client.  Each reply may depend on the
requests made before, the first argument.  `client` is the error of
`getDockerClient` (`none` when a client is available); the client is kept
in a package variable, so that within one `prune` every call of
`getDockerClient` ends as the first one does. -/
structure Registry where
  client : Option Str
  imageList : List Request → Str → Reply (List ImageSummary)
  imageInspect : List Request → Str → Reply ImageInspect
  imageRemove : List Request → Str → Option Str
  imagesPrune : List Request → Option Str
  containersPrune : List Request → Option Str

/-- The function `getImageSummary`, the client being available: the summary
(`none` for the nil summary of a listing that is not of one image) or the
error, and the requests made so far. -/
def getImageSummary (reg : Registry) (log : List Request) (imageName : Str) :
    Reply (Option ImageSummary) × List Request :=
  match reg.imageList log imageName with
  | .error e => (.error e, log ++ [.imageList imageName])
  | .ok [image] => (.ok (some image), log ++ [.imageList imageName])
  | .ok _ => (.ok none, log ++ [.imageList imageName])

/-- Go `strings.SplitN(s, sep, 2)` for a separator of one character. -/
def SplitN2 (s : Str) (sep : Char) : List Str :=
  if sep ∈ s then [s.takeWhile (· ≠ sep), (s.dropWhile (· ≠ sep)).tail] else [s]

/-- The loop of `getActualImageVersionFromImageID` over the environment of
the image; `none` when `values[1]` is read from an entry that is the marker
name without `=`. -/
def envVersion : List Str → Option Str
  | [] => some []
  | v :: env =>
    if (SplitN2 v '=').headD [] = runContainerImageVersion then (SplitN2 v '=').get? 1
    else envVersion env

/-- The function `getActualImageVersionFromImageID` (with `inspectImage`):
`none` is a panic. -/
def getActualImageVersionFromImageID (reg : Registry) (log : List Request) (imageID : Str) :
    Option (Reply Str) × List Request :=
  match reg.imageInspect log imageID with
  | .error e => (some (.error e), log ++ [.imageInspect imageID])
  | .ok inspect => ((envVersion inspect.Env).map .ok, log ++ [.imageInspect imageID])

/-- The function `getActualImageVersionInternal`. -/
def getActualImageVersionInternal (reg : Registry) (log : List Request) (imageName : Str) :
    Option (Reply Str) × List Request :=
  match getImageSummary reg log imageName with
  | (.error e, log1) => (some (.error e), log1)
  | (.ok (some image), log1) => getActualImageVersionFromImageID reg log1 image.ID
  | (.ok none, log1) => (some (.ok []), log1)

/-- The method `getImage` of `DockerConfig`. -/
def DockerConfig.getImage (docker : DockerConfig) : Str :=
  if !Contains docker.GetImageName ":".toList then docker.GetImageName ++ ":latest".toList
  else docker.GetImageName

/-- The method `GetActualImageVersion` of `DockerConfig`. -/
def DockerConfig.GetActualImageVersion (reg : Registry) (log : List Request)
    (config : DockerConfig) : Option (Reply Str) × List Request :=
  getActualImageVersionInternal reg log config.getImage

/-- The function `deleteImage`: the error it returns, and the requests made. -/
def deleteImage (reg : Registry) (log : List Request) (id : Str) :
    Option Str × List Request :=
  (reg.imageRemove log id, log ++ [.imageRemove id])

/-- Lines 462-464 of `prune`: every tag is deleted, the errors are dropped. -/
def deleteTags (reg : Registry) : List Str → List Request → List Request
  | [], log => log
  | tag :: tags, log => deleteTags reg tags (deleteImage reg log tag).2

/-- Lines 444-465 of `prune`, one image of a listing: `some none` to go on,
`some (some e)` to return the error `e`, `none` for a panic. -/
def pruneImage {V : Type} (semver : Semver V) (reg : Registry) (current : Str)
    (image : ImageSummary) (log : List Request) : Option (Option Str) × List Request :=
  match getActualImageVersionFromImageID reg log image.ID with
  | (none, log1) => (none, log1)
  | (some (.error e), log1) => (some (some e), log1)
  | (some (.ok actual), log1) =>
    match CheckVersionRange semver (pruneActualVersion actual image.RepoTags) current with
    | none => (some none, log1)
    | some upToDate =>
      if !upToDate then (some none, deleteTags reg image.RepoTags log1)
      else (some none, log1)

/-- Lines 443-466 of `prune`: the images of one listing, in order, up to the
first one that makes `prune` return. -/
def pruneImages {V : Type} (semver : Semver V) (reg : Registry) (current : Str) :
    List ImageSummary → List Request → Option (Option Str) × List Request
  | [], log => (some none, log)
  | image :: images, log =>
    match pruneImage semver reg current image log with
    | (some none, log1) => pruneImages semver reg current images log1
    | stop => stop

/-- Lines 439-468 of `prune`: the patterns, in order; a listing that fails
is skipped. -/
def prunePatterns {V : Type} (semver : Semver V) (reg : Registry) (current : Str) :
    List Str → List Request → Option (Option Str) × List Request
  | [], log => (some none, log)
  | image :: images, log =>
    match reg.imageList log image with
    | .ok listed =>
      match pruneImages semver reg current listed (log ++ [.imageList image]) with
      | (some none, log1) => prunePatterns semver reg current images log1
      | stop => stop
    | .error _ => prunePatterns semver reg current images (log ++ [.imageList image])

/-- Lines 433-469 of `prune`: the removal of the stale images. -/
def DockerConfig.pruneStale {V : Type} (semver : Semver V) (reg : Registry)
    (config : DockerConfig) (images : List Str) : Option (Option Str) × List Request :=
  if images.length > 0 then
    match config.GetActualImageVersion reg [] with
    | (none, log) => (none, log)
    | (some (.error e), log) => (some (some e), log)
    | (some (.ok actualImageVersion), log) =>
      prunePatterns semver reg (">=".toList ++ actualImageVersion) images log
  else (some none, [])

/-- The method `prune` of `DockerConfig`: the error it returns (`some none`
for nil, `none` for a panic) and the requests it sent to the daemon, in
order.  The replies to the two last requests are only written to the error
output. -/
def DockerConfig.prune {V : Type} (semver : Semver V) (reg : Registry)
    (config : DockerConfig) (images : List Str) : Option (Option Str) × List Request :=
  match reg.client with
  | some e => (some (some e), [])
  | none =>
    match config.pruneStale semver reg images with
    | (some none, log) =>
      match reg.imagesPrune log, reg.containersPrune (log ++ [.imagesPrune]) with
      | _, _ => (some none, log ++ [.imagesPrune] ++ [.containersPrune])
    | stop => stop

/-- The two removal requests that end `prune`. -/
def isPruneRequest : Request → Bool
  | .imagesPrune => true
  | .containersPrune => true
  | _ => false

/-- The removal requests among the requests sent, in order. -/
def pruneRequests (log : List Request) : List Request := log.filter isPruneRequest

/-! ## Concrete hosts, worlds and profiles -/

/-- A Linux host in `/home/u/proj` whose environment lists `FOO=bar`. -/
def linuxHost : Host where
  windows := false
  dockerMachineName := []
  getwd := some "/home/u/proj".toList
  evalSymlinks := fun path => some path
  volumeNameWindows := fun _ => []
  currentUser := some ⟨"1000".toList, "1000".toList, "u".toList, "/home/u".toList⟩
  dockerMountArgs := ["-v".toList, "/var/run/docker.sock:/var/run/docker.sock".toList]
  base := fun _ => "u".toList
  tempDir := "/tmp".toList
  joinCache := fun dir => dir ++ "/runcontainer-cache".toList
  imageSummary := fun _ => some (some "sha256:0".toList)
  inspectImageUser := fun _ => some []
  environ := ["FOO=bar".toList]

/-- A Windows host in `C:\work\proj`, without `DOCKER_MACHINE_NAME`. -/
def windowsHost : Host where
  windows := true
  dockerMachineName := []
  getwd := some "C:\\work\\proj".toList
  evalSymlinks := fun path => some path
  volumeNameWindows := fun path => path.take 2
  currentUser := some ⟨"S-1".toList, "S-2".toList, "u".toList, "C:\\Users\\u".toList⟩
  dockerMountArgs := []
  base := fun _ => "u".toList
  tempDir := "C:\\Temp".toList
  joinCache := fun dir => dir ++ "\\runcontainer-cache".toList
  imageSummary := fun _ => some (some "sha256:0".toList)
  inspectImageUser := fun _ => some []
  environ := []

/-- The profile `app` with entry point `sh`, mount point `src`, no temporary
directory and nothing else set. -/
def plainConfig : DockerConfig where
  Image := "app".toList
  ImageTag := []
  EntryPoint := "sh".toList
  MountPoint := "src".toList
  DockerInteractive := false
  WithDockerMount := false
  WithCurrentUser := false
  MountHomeDirectory := false
  DockerOptions := []
  TempDirMountLocation := MountLocNone
  Environment := []
  RunBeforeCommands := []
  RunAfterCommands := []

/-- A world in which every script succeeds and the runtime exits with
`status` after writing `stderr` to its error output. -/
def worldExiting (status : Int) (stderr : Str) : World where
  script := fun _ => .ok
  docker := fun _ => .exited status stderr

/-- A world in which the script `false` fails and every other one succeeds. -/
def worldFalseFails : World where
  script := fun s => if s = "false".toList then .failed else .ok
  docker := fun _ => .exited 0 []

/-- A Windows host under docker-machine (`DOCKER_MACHINE_NAME` is `default`). -/
def legacyHost : Host := { windowsHost with dockerMachineName := "default".toList }

/-- A daemon that holds the image `app:latest` of the profile, marked with
version `2.0.0`, and for every other reference lists the image `old`, which
has no marker and the tag `app:1.2`; every request succeeds. -/
def staleRegistry : Registry where
  client := none
  imageList := fun _ reference =>
    if reference = "app:latest".toList then .ok [⟨"new".toList, ["app:latest".toList]⟩]
    else .ok [⟨"old".toList, ["app:1.2".toList]⟩]
  imageInspect := fun _ id =>
    if id = "new".toList then .ok ⟨[], ["RUNCONTAINER_IMAGE_VERSION=2.0.0".toList]⟩
    else .ok ⟨[], ["PATH=/bin".toList]⟩
  imageRemove := fun _ _ => none
  imagesPrune := fun _ => none
  containersPrune := fun _ => none

/-- The daemon `staleRegistry` on which every inspection fails. -/
def inspectFailsRegistry : Registry :=
  { staleRegistry with imageInspect := fun _ _ => .error "no such image".toList }

/-- The daemon `staleRegistry` on which the image of the profile inspects
well and every other inspection fails. -/
def listedInspectFailsRegistry : Registry :=
  { staleRegistry with
    imageInspect := fun _ id =>
      if id = "new".toList then .ok ⟨[], ["RUNCONTAINER_IMAGE_VERSION=2.0.0".toList]⟩
      else .error "no such image".toList }

/-! ## Lemmas on strings and lists -/

theorem len_pos_of_ne_nil (s : Str) (h : s ≠ []) : 0 < len s := by
  cases s with
  | nil => exact absurd rfl h
  | cons c cs =>
    have := Char.utf8Size_pos c
    simp only [len, List.map_cons, List.sum_cons]
    omega

theorem listContainsElement_iff (list : List Str) (element : Str) :
    listContainsElement list element = true ↔ element ∈ list := by
  induction list with
  | nil => simp [listContainsElement]
  | cons item list ih =>
    by_cases h : item = element
    · simp [listContainsElement, h]
    · have h2 : ¬ element = item := fun e => h e.symm
      simp [listContainsElement, h, h2, ih]

theorem runCommands_fail (world : World) (pre : List Str) (c : Str) (post : List Str)
    (hpre : ∀ x ∈ pre, world.script x = .ok) (hc : world.script c ≠ .ok) :
    runCommands world (pre ++ c :: post) =
      (true, pre.map Event.script ++
        (if world.script c = .failed then [Event.script c] else [])) := by
  induction pre with
  | nil =>
    cases hs : world.script c with
    | noCommand => simp [runCommands, hs]
    | failed => simp [runCommands, hs]
    | ok => exact absurd hs hc
  | cons x xs ih =>
    have hx : world.script x = .ok := hpre x (List.mem_cons_self _ _)
    have hxs := ih (fun y hy => hpre y (List.mem_cons_of_mem _ hy))
    simp [runCommands, hx, hxs]

theorem exists_first_failure (world : World) (commands : List Str)
    (h : ∃ c ∈ commands, world.script c ≠ .ok) :
    ∃ pre c post, commands = pre ++ c :: post ∧
      (∀ x ∈ pre, world.script x = .ok) ∧ world.script c ≠ .ok := by
  induction commands with
  | nil => obtain ⟨c, hc, _⟩ := h; cases hc
  | cons a rest ih =>
    by_cases ha : world.script a = .ok
    · have : ∃ c ∈ rest, world.script c ≠ .ok := by
        obtain ⟨c, hc, hne⟩ := h
        rcases List.mem_cons.mp hc with rfl | hc
        · exact absurd ha hne
        · exact ⟨c, hc, hne⟩
      obtain ⟨pre, c, post, hsplit, hpre, hc⟩ := ih this
      refine ⟨a :: pre, c, post, by simp [hsplit], ?_, hc⟩
      intro x hx
      rcases List.mem_cons.mp hx with rfl | hx
      · exact ha
      · exact hpre x hx
    · exact ⟨[], a, rest, rfl, by simp, ha⟩

theorem optionTokens_eq (config : DockerConfig) :
    config.optionTokens = config.DockerOptions.flatMap (fun opt => Split opt ' ') := by
  have key : ∀ (l : List Str) (acc : List Str),
      l.foldl (fun acc opt => acc ++ Split opt ' ') acc =
        acc ++ l.flatMap (fun opt => Split opt ' ') := by
    intro l
    induction l with
    | nil => intro acc; simp
    | cons o os ih => intro acc; simp [List.foldl_cons, ih, List.flatMap_cons, List.append_assoc]
  simpa [DockerConfig.optionTokens] using key config.DockerOptions []

theorem Split_no_sep (s : Str) (sep : Char) (h : sep ∉ s) : Split s sep = [s] := by
  induction s with
  | nil => rfl
  | cons c cs ih =>
    have hc : ¬ c = sep := fun e => h (e ▸ List.mem_cons_self _ _)
    have hcs : sep ∉ cs := fun m => h (List.mem_cons_of_mem _ m)
    simp [Split, hc, ih hcs]

theorem Split_head (r tail : Str) (sep : Char) (hr : sep ∉ r)
    (htail : tail = [] ∨ ∃ rest, tail = sep :: rest) :
    (Split (r ++ tail) sep).headD [] = r := by
  induction r with
  | nil =>
    rcases htail with rfl | ⟨rest, rfl⟩
    · rfl
    · simp [Split]
  | cons c cs ih =>
    have hc : ¬ c = sep := fun e => hr (e ▸ List.mem_cons_self _ _)
    have hcs : sep ∉ cs := fun m => hr (List.mem_cons_of_mem _ m)
    have ih := ih hcs
    simp only [List.cons_append, Split, hc, if_false]
    cases hsp : Split (cs ++ tail) sep with
    | nil => rw [hsp] at ih; simp at ih; simp [ih]
    | cons w ws => rw [hsp] at ih; simp at ih; simp [ih]

theorem ReplaceOnce_leading (r tail m : Str) : ReplaceOnce (r ++ tail) r m = m ++ tail := by
  cases hs : r ++ tail with
  | nil =>
    have hr : r = [] := (List.append_eq_nil.mp hs).1
    have ht : tail = [] := (List.append_eq_nil.mp hs).2
    simp [ReplaceOnce, hr, ht]
  | cons c cs =>
    have hp : r.isPrefixOf (c :: cs) = true := by
      rw [← hs]; exact List.isPrefixOf_iff_prefix.mpr (List.prefix_append r tail)
    simp only [ReplaceOnce, hp, if_true]
    rw [← hs, List.drop_left]

theorem TrimPrefix_leading (pre s : Str) : TrimPrefix (pre ++ s) pre = s := by
  have hp : pre.isPrefixOf (pre ++ s) = true :=
    List.isPrefixOf_iff_prefix.mpr (List.prefix_append pre s)
  simp [TrimPrefix, HasPrefix, hp]

theorem ne_name_of_colon (x : Str) (h : ':' ∈ x) : x ≠ "--name".toList := by
  intro e
  rw [e] at h
  revert h
  decide

theorem ToSlash_no_backslash (host : Host) (path : Str) :
    host.windows = true → '\\' ∉ ToSlash host path := by
  intro hw
  simp only [ToSlash, hw, if_true]
  intro hmem
  obtain ⟨c, _, hc⟩ := List.mem_map.mp hmem
  by_cases h : c = '\\'
  · simp [h] at hc
  · simp [h] at hc

theorem ToSlash_of_no_backslash (host : Host) (path : Str)
    (h : host.windows = true → '\\' ∉ path) : ToSlash host path = path := by
  unfold ToSlash
  cases hw : host.windows with
  | false => simp
  | true =>
    simp only [if_true]
    have hp := h hw
    clear h hw
    induction path with
    | nil => rfl
    | cons c cs ih =>
      have hc : ¬ c = '\\' := fun e => hp (e ▸ List.mem_cons_self _ _)
      have hcs : '\\' ∉ cs := fun m => hp (List.mem_cons_of_mem _ m)
      simp [hc, ih hcs]

theorem getCwd_no_backslash (host : Host) (hw : host.windows = true) :
    '\\' ∉ (getCwd host).1 := by
  unfold getCwd
  cases host.getwd with
  | none => simp
  | some cwd =>
    show '\\' ∉ (match host.evalSymlinks cwd with
      | none => (([] : Str), (none : Option Str))
      | some cwd => (ToSlash host cwd, none)).1
    cases host.evalSymlinks cwd with
    | none => simp
    | some p => exact ToSlash_no_backslash host p hw

theorem ne_name_of_slash (x : Str) : "/".toList ++ x ≠ "--name".toList := by
  intro e
  simp at e

theorem ne_name_of_home (x : Str) : "HOME=".toList ++ x ≠ "--name".toList := by
  intro e
  simp at e

theorem mountArgs_no_name (host : Host) (config : DockerConfig) (cwd : Str)
    (mount : List Str) (h : config.mountArgs host cwd = some mount) :
    "--name".toList ∉ mount := by
  unfold DockerConfig.mountArgs at h
  dsimp only at h
  have h1 : ¬ "--name".toList = "run".toList := by decide
  have h2 : ¬ "--name".toList = "-it".toList := by decide
  have h3 : ¬ "--name".toList = "-v".toList := by decide
  have h4 : ¬ "--name".toList = "-w".toList := by decide
  split at h
  · cases h
  · simp only [Option.some.injEq] at h
    subst h
    intro hmem
    split at hmem <;>
      simp only [List.mem_append, List.mem_cons, List.mem_singleton, List.not_mem_nil,
        h1, h2, h3, h4, false_or, or_false] at hmem
    · rcases hmem with e | e
      · exact ne_name_of_colon _ (by simp) e.symm
      · exact ne_name_of_slash _ e.symm
    · rcases hmem with e | e
      · exact ne_name_of_colon _ (by simp) e.symm
      · exact ne_name_of_slash _ e.symm

theorem userArgs_no_name (host : Host) (config : DockerConfig) (currentUser : User)
    (hmount : config.WithDockerMount = true → "--name".toList ∉ host.dockerMountArgs) :
    "--name".toList ∉ config.userArgs host currentUser := by
  unfold DockerConfig.userArgs
  intro hmem
  rcases List.mem_append.mp hmem with h | h
  · split at h
    · exact hmount (by assumption) h
    · simp at h
  · split at h
    · rw [List.mem_singleton] at h
      exact ne_name_of_colon _ (by simp) h.symm
    · simp at h

theorem homeArgs_no_name (host : Host) (config : DockerConfig) (currentUser : User)
    (home : List Str) (h : config.homeArgs host currentUser = some home) :
    "--name".toList ∉ home := by
  have h3 : ¬ "--name".toList = "-v".toList := by decide
  have h4 : ¬ "--name".toList = "-e".toList := by decide
  unfold DockerConfig.homeArgs at h
  dsimp only at h
  split at h
  · split at h
    · cases h
    · simp only [Option.some.injEq] at h
      subst h
      intro hmem
      simp only [List.mem_cons, List.mem_singleton, List.not_mem_nil, h3, h4, false_or,
        or_false] at hmem
      rcases hmem with e | e
      · exact ne_name_of_colon _ (by simp) e.symm
      · exact ne_name_of_home _ e.symm
  · split at h
    · split at h
      · cases h
      · cases h
      · split at h
        · cases h
        · simp only [Option.some.injEq] at h
          subst h
          intro hmem
          simp only [List.mem_cons, List.mem_singleton, List.not_mem_nil, h3, h4, false_or,
            or_false] at hmem
          rcases hmem with e | e
          · exact ne_name_of_home _ e.symm
          · exact ne_name_of_colon _ (by simp) e.symm
    · simp only [Option.some.injEq] at h
      subst h
      simp

theorem tempArgs_no_name (host : Host) (config : DockerConfig)
    (temp : List Str) (h : config.tempArgs host = some temp) :
    "--name".toList ∉ temp := by
  have h3 : ¬ "--name".toList = "-v".toList := by decide
  unfold DockerConfig.tempArgs at h
  dsimp only at h
  split at h
  · split at h
    · cases h
    · split at h
      · cases h
      · simp only [Option.some.injEq] at h
        subst h
        intro hmem
        simp only [List.mem_cons, List.mem_singleton, List.not_mem_nil, h3, false_or,
          or_false] at hmem
        exact ne_name_of_colon _ (by simp) hmem.symm
  · split at h
    · simp only [Option.some.injEq] at h
      subst h
      simp
    · split at h
      · simp only [Option.some.injEq] at h
        subst h
        intro hmem
        simp only [List.mem_cons, List.mem_singleton, List.not_mem_nil, h3, false_or,
          or_false] at hmem
        exact ne_name_of_colon _ (by simp) hmem.symm
      · cases h

theorem name_mem_optionTokens (config : DockerConfig) :
    "--name".toList ∈ config.optionTokens ↔
      ∃ o ∈ config.DockerOptions, "--name".toList ∈ Split o ' ' := by
  rw [optionTokens_eq, List.mem_flatMap]

theorem argsBeforeRemove_shape (host : Host) (config : DockerConfig) (before : List Str)
    (h : config.argsBeforeRemove host = some before)
    (hmount : config.WithDockerMount = true → "--name".toList ∉ host.dockerMountArgs) :
    (∃ pre, before = pre ++ config.optionTokens) ∧
    ("--name".toList ∈ before ↔
      ∃ o ∈ config.DockerOptions, "--name".toList ∈ Split o ' ') := by
  unfold DockerConfig.argsBeforeRemove at h
  have herr : (getCwd host).2 = none := by
    unfold getCwd
    cases host.getwd with
    | none => rfl
    | some cwd =>
      show (match host.evalSymlinks cwd with
        | none => (([] : Str), (none : Option Str))
        | some cwd => (ToSlash host cwd, none)).2 = none
      cases host.evalSymlinks cwd <;> rfl
  rcases hg : getCwd host with ⟨cwd, err⟩
  rw [hg] at h herr
  simp only at herr
  subst herr
  simp only at h
  cases hm : config.mountArgs host cwd with
  | none => simp [hm] at h
  | some mount =>
    cases hu : host.currentUser with
    | none => simp [hm, hu] at h
    | some currentUser =>
      cases hh : config.homeArgs host currentUser with
      | none => simp [hm, hu, hh] at h
      | some home =>
        cases ht : config.tempArgs host with
        | none => simp [hm, hu, hh, ht] at h
        | some temp =>
          simp only [hm, hu, hh, ht, Option.some.injEq] at h
          subst h
          refine ⟨⟨_, rfl⟩, ?_⟩
          rw [← name_mem_optionTokens]
          have n1 := mountArgs_no_name host config cwd mount hm
          have n2 := userArgs_no_name host config currentUser hmount
          have n3 := homeArgs_no_name host config currentUser home hh
          have n4 := tempArgs_no_name host config temp ht
          have n5 : "--name".toList ∈ config.DockerOptions →
              "--name".toList ∈ config.optionTokens := by
            intro hmem
            rw [name_mem_optionTokens]
            refine ⟨_, hmem, ?_⟩
            rw [Split_no_sep _ _ (by decide)]
            exact List.mem_singleton.mpr rfl
          simp only [List.mem_append, n1, n2, n3, n4, false_or, or_false]
          constructor
          · rintro (hx | hx)
            · exact n5 hx
            · exact hx
          · exact fun hx => Or.inr hx

theorem Split_at_first_sep (n v : Str) (sep : Char) (h : sep ∉ n) :
    Split (n ++ sep :: v) sep = n :: Split v sep := by
  induction n with
  | nil => simp [Split]
  | cons c cs ih =>
    have hc : ¬ c = sep := fun e => h (e ▸ List.mem_cons_self _ _)
    have hcs : sep ∉ cs := fun m => h (List.mem_cons_of_mem _ m)
    simp [Split, hc, ih hcs]

theorem Split_first_slash (v : Str) :
    ∃ w ws, Split v '=' = w :: ws ∧ HasPrefix w ['/'] = HasPrefix v ['/'] := by
  cases v with
  | nil => exact ⟨[], [], rfl, rfl⟩
  | cons c cs =>
    by_cases hc : c = '='
    · subst hc
      exact ⟨[], Split cs '=', by simp [Split], by simp [HasPrefix, List.isPrefixOf]⟩
    · cases hs : Split cs '=' with
      | nil => exact ⟨[c], [], by simp [Split, hc, hs], by simp [HasPrefix, List.isPrefixOf]⟩
      | cons w ws =>
        exact ⟨c :: w, ws, by simp [Split, hc, hs], by simp [HasPrefix, List.isPrefixOf]⟩

theorem getEnviron_fold {α : Type} (host : Host) (g : α → Str) (f : α → List Str)
    (l : List α) (h : ∀ a ∈ l, getEnvironEntry host (g a) = some (f a)) (acc : List Str) :
    (l.map g).foldl
      (fun result env =>
        match result, getEnvironEntry host env with
        | some r, some e => some (r ++ e)
        | _, _ => none)
      (some acc) = some (acc ++ l.flatMap f) := by
  induction l generalizing acc with
  | nil => simp
  | cons a rest ih =>
    have he := h a (List.mem_cons_self _ _)
    have hrest := ih (fun x hx => h x (List.mem_cons_of_mem _ hx)) (acc ++ f a)
    rw [List.map_cons, List.foldl_cons]
    simp only [he]
    rw [hrest, List.flatMap_cons, List.append_assoc]

theorem flatMap_filter {α β : Type} (p : α → Bool) (f : α → List β) (l : List α) :
    (l.filter p).flatMap f = l.flatMap (fun a => if p a then f a else []) := by
  induction l with
  | nil => rfl
  | cons a rest ih =>
    cases hp : p a <;> simp [List.filter_cons, hp, ih, List.flatMap_cons]

theorem getEnvironEntry_non_windows (host : Host) (name value : Str)
    (hw : host.windows = false) (heq : '=' ∉ name) (htrim : TrimSpace name = name) :
    getEnvironEntry host (name ++ "=".toList ++ value) =
      some (if decide (name ≠ [] ∧ name ∉ droppedNames ∧
          ¬ (Contains (ToUpper name) "PATH".toList = true ∧
             HasPrefix value "/".toList = true))
        then ["-e".toList, name] else []) := by
  have hsplit : Split (name ++ "=".toList ++ value) '=' = name :: Split value '=' := by
    rw [List.append_assoc]
    exact Split_at_first_sep name value '=' heq
  obtain ⟨w, ws, hv, hpre⟩ := Split_first_slash value
  have hsep : PathSeparator host = '/' := by simp [PathSeparator, hw]
  have hslash : "/".toList = ['/'] := rfl
  unfold getEnvironEntry
  simp only [hsplit, hv, List.headD_cons, htrim, hw, hsep, List.get?_cons_succ,
    List.get?_cons_zero, hpre, hslash, Bool.false_eq_true, if_false]
  by_cases h1 : name = []
  · simp [h1]
  · by_cases h2 : Contains (ToUpper name) ['P', 'A', 'T', 'H'] = true
    · by_cases h3 : HasPrefix value ['/'] = true
      · simp [h1, h2, h3]
      · by_cases h4 : name ∈ droppedNames
        · simp [h1, h2, h3, h4]
        · simp [h1, h2, h3, h4]
    · by_cases h4 : name ∈ droppedNames
      · simp [h1, h2, h4]
      · simp [h1, h2, h4]

theorem digits_no_dot (s : Str) (h : s.all Char.isDigit = true) : '.' ∉ s := by
  intro hm
  have := List.all_eq_true.mp h '.' hm
  revert this
  decide

theorem versionNumber_of_digits (s : Str) (hne : s ≠ []) (hd : s.all Char.isDigit = true)
    (hz : s.length > 1 → s.head? ≠ some '0') (hb : digitsValue s < 2 ^ 64) :
    versionNumber s = some (digitsValue s) := by
  unfold versionNumber
  have h1 : ¬ (s = [] ∨ (!s.all Char.isDigit) = true) := by
    rintro (h | h)
    · exact hne h
    · rw [hd] at h; exact absurd h (by decide)
  have h2 : ¬ (s.length > 1 ∧ s.head? = some '0') := fun h => hz h.1 h.2
  rw [if_neg h1, if_neg h2, if_pos hb]

theorem parseVersion_three (major minor patch : Str) (a b c : Nat)
    (h1 : '.' ∉ major) (h2 : '.' ∉ minor) (h3 : '.' ∉ patch)
    (ha : versionNumber major = some a) (hb : versionNumber minor = some b)
    (hc : versionNumber patch = some c) :
    parseVersion (major ++ ".".toList ++ minor ++ ".".toList ++ patch) = some ⟨a, b, c⟩ := by
  have hs : Split (major ++ ".".toList ++ minor ++ ".".toList ++ patch) '.' =
      [major, minor, patch] := by
    have e : major ++ ".".toList ++ minor ++ ".".toList ++ patch =
        major ++ '.' :: (minor ++ '.' :: patch) := by
      simp [List.append_assoc]
    rw [e, Split_at_first_sep major _ '.' h1, Split_at_first_sep minor _ '.' h2,
      Split_no_sep patch '.' h3]
  unfold parseVersion
  rw [hs]
  simp only [ha, hb, hc]

theorem parseRange_atLeast (v : Str) (o : Version) (c : Char) (cs : Str)
    (hv : v = c :: cs) (hc : c.isDigit = true) (ho : parseVersion v = some o) :
    parseRange (">=".toList ++ v) =
      some (fun (w : Version) => decide (w.compare o ≠ Ordering.lt)) := by
  subst hv
  have ht : (">=".toList ++ c :: cs).takeWhile (fun x => !x.isDigit) = ">=".toList := by
    show ('>' :: '=' :: c :: cs).takeWhile (fun x => !x.isDigit) = ['>', '=']
    have h1 : (!('>' : Char).isDigit) = true := by decide
    have h2 : (!('=' : Char).isDigit) = true := by decide
    simp [List.takeWhile, h1, h2, hc]
  have hd : (">=".toList ++ c :: cs).dropWhile (fun x => !x.isDigit) = c :: cs := by
    show ('>' :: '=' :: c :: cs).dropWhile (fun x => !x.isDigit) = c :: cs
    have h1 : (!('>' : Char).isDigit) = true := by decide
    have h2 : (!('=' : Char).isDigit) = true := by decide
    simp [List.dropWhile, h1, h2, hc]
  have htrim : TrimSpace ">=".toList = ">=".toList := by decide
  have hcmp : parseComparator ">=".toList = some (fun v o => decide (v.compare o ≠ .lt)) := rfl
  unfold parseRange
  simp only [ht, hd, htrim, hcmp, ho]

theorem len_nil : len [] = 0 := rfl

theorem foldl_longest (v : Str → Str) (tags : List Str) :
    (∀ t ∈ tags, len (v t) ≤
      len (tags.foldl (fun actual tag =>
        if v tag ≠ [] then (if len (v tag) > len actual then v tag else actual)
        else actual) [])) ∧
    (tags.foldl (fun actual tag =>
        if v tag ≠ [] then (if len (v tag) > len actual then v tag else actual)
        else actual) [] = [] ∨
      ∃ pre t post, tags = pre ++ t :: post ∧
        tags.foldl (fun actual tag =>
          if v tag ≠ [] then (if len (v tag) > len actual then v tag else actual)
          else actual) [] = v t ∧
        ∀ u ∈ pre, len (v u) < len (v t)) := by
  induction tags using List.reverseRecOn with
  | nil => exact ⟨by simp, Or.inl rfl⟩
  | append_singleton l t ih =>
    obtain ⟨hbound, hshape⟩ := ih
    rw [List.foldl_append, List.foldl_cons, List.foldl_nil]
    generalize l.foldl (fun actual tag =>
        if v tag ≠ [] then (if len (v tag) > len actual then v tag else actual)
        else actual) [] = r at hbound hshape ⊢
    by_cases hgt : v t ≠ [] ∧ len (v t) > len r
    · have hstep : (if v t ≠ [] then (if len (v t) > len r then v t else r) else r) = v t := by
        rw [if_pos hgt.1, if_pos hgt.2]
      rw [hstep]
      refine ⟨?_, Or.inr ⟨l, t, [], rfl, rfl, ?_⟩⟩
      · intro u hu
        rcases List.mem_append.mp hu with h | h
        · exact Nat.le_of_lt (Nat.lt_of_le_of_lt (hbound u h) hgt.2)
        · rw [List.mem_singleton.mp h]
      · intro u hu
        exact Nat.lt_of_le_of_lt (hbound u hu) hgt.2
    · have hle : len (v t) ≤ len r := by
        by_cases hne : v t ≠ []
        · exact Nat.le_of_not_gt (fun h => hgt ⟨hne, h⟩)
        · rw [not_not.mp hne, len_nil]; exact Nat.zero_le _
      have hstep : (if v t ≠ [] then (if len (v t) > len r then v t else r) else r) = r := by
        by_cases hne : v t ≠ []
        · rw [if_pos hne, if_neg (fun h => hgt ⟨hne, h⟩)]
        · rw [if_neg hne]
      rw [hstep]
      refine ⟨?_, ?_⟩
      · intro u hu
        rcases List.mem_append.mp hu with h | h
        · exact hbound u h
        · rw [List.mem_singleton.mp h]; exact hle
      · rcases hshape with h | ⟨pre, t0, post, hsplit, hr, hpre⟩
        · exact Or.inl h
        · exact Or.inr ⟨pre, t0, post ++ [t], by rw [hsplit]; simp, hr, hpre⟩

theorem getEnvironEntry_cases (host : Host) (env : Str) :
    getEnvironEntry host env = none ∨ getEnvironEntry host env = some [] ∨
      getEnvironEntry host env = some ["-e".toList, (Split env '=').headD []] := by
  unfold getEnvironEntry
  dsimp only
  split_ifs <;> (try split) <;> (try split_ifs) <;> (try split) <;> (try split_ifs) <;> simp

theorem retains_iff (host : Host) (env : Str) :
    retains host env = true ↔
      getEnvironEntry host env = some ["-e".toList, (Split env '=').headD []] := by
  unfold retains
  rcases getEnvironEntry_cases host env with h | h | h <;> rw [h] <;> simp

theorem getEnviron_fold_none (host : Host) (l : List Str) :
    l.foldl
      (fun result env =>
        match result, getEnvironEntry host env with
        | some r, some e => some (r ++ e)
        | _, _ => none)
      none = none := by
  induction l with
  | nil => rfl
  | cons env rest ih => simpa [List.foldl_cons] using ih

theorem getEnviron_fold_retained (host : Host) (l : List Str) (acc result : List Str)
    (h : l.foldl
      (fun result env =>
        match result, getEnvironEntry host env with
        | some r, some e => some (r ++ e)
        | _, _ => none)
      (some acc) = some result) :
    result = acc ++ (l.filter (retains host)).flatMap
      (fun env => ["-e".toList, (Split env '=').headD []]) := by
  induction l generalizing acc with
  | nil =>
    simp only [List.foldl_nil, Option.some.injEq] at h
    simp [h]
  | cons env rest ih =>
    rw [List.foldl_cons] at h
    rcases getEnvironEntry_cases host env with he | he | he
    · simp only [he] at h
      rw [getEnviron_fold_none] at h
      cases h
    · have hr : retains host env = false := by
        cases hb : retains host env with
        | false => rfl
        | true => rw [(retains_iff host env).mp hb] at he; cases he
      simp only [he] at h
      rw [ih _ h, List.filter_cons, hr]
      simp
    · have hr : retains host env = true := (retains_iff host env).mpr he
      simp only [he] at h
      rw [ih _ h, List.filter_cons, hr]
      simp [List.flatMap_cons]

theorem pruneRequests_append (a b : List Request) :
    pruneRequests (a ++ b) = pruneRequests a ++ pruneRequests b := by
  simp [pruneRequests]

theorem not_mem_of_pruneRequests_nil (log : List Request) (h : pruneRequests log = []) :
    Request.imagesPrune ∉ log ∧ Request.containersPrune ∉ log := by
  unfold pruneRequests at h
  rw [List.filter_eq_nil_iff] at h
  exact ⟨fun hm => h _ hm rfl, fun hm => h _ hm rfl⟩

theorem getImageSummary_quiet (reg : Registry) (log : List Request) (imageName : Str) :
    pruneRequests (getImageSummary reg log imageName).2 = pruneRequests log := by
  unfold getImageSummary
  split <;> simp [pruneRequests, isPruneRequest]

theorem getActualImageVersionFromImageID_quiet (reg : Registry) (log : List Request)
    (imageID : Str) :
    pruneRequests (getActualImageVersionFromImageID reg log imageID).2 = pruneRequests log := by
  unfold getActualImageVersionFromImageID
  split <;> simp [pruneRequests, isPruneRequest]

theorem getActualImageVersionInternal_quiet (reg : Registry) (log : List Request)
    (imageName : Str) :
    pruneRequests (getActualImageVersionInternal reg log imageName).2 = pruneRequests log := by
  have hs := getImageSummary_quiet reg log imageName
  unfold getActualImageVersionInternal
  split
  · next e log1 heq => rw [heq] at hs; exact hs
  · next image log1 heq =>
    rw [heq] at hs
    rw [getActualImageVersionFromImageID_quiet]
    exact hs
  · next log1 heq => rw [heq] at hs; exact hs

theorem deleteTags_quiet (reg : Registry) (tags : List Str) (log : List Request) :
    pruneRequests (deleteTags reg tags log) = pruneRequests log := by
  induction tags generalizing log with
  | nil => rfl
  | cons tag tags ih =>
    rw [deleteTags, ih]
    simp [deleteImage, pruneRequests, isPruneRequest]

theorem pruneImage_quiet {V : Type} (semver : Semver V) (reg : Registry) (current : Str)
    (image : ImageSummary) (log : List Request) :
    pruneRequests (pruneImage semver reg current image log).2 = pruneRequests log := by
  have hs := getActualImageVersionFromImageID_quiet reg log image.ID
  unfold pruneImage
  split
  · next log1 heq => rw [heq] at hs; exact hs
  · next e log1 heq => rw [heq] at hs; exact hs
  · next actual log1 heq =>
    rw [heq] at hs
    split
    · exact hs
    · split
      · rw [deleteTags_quiet]; exact hs
      · exact hs

theorem pruneImages_quiet {V : Type} (semver : Semver V) (reg : Registry) (current : Str)
    (images : List ImageSummary) (log : List Request) :
    pruneRequests (pruneImages semver reg current images log).2 = pruneRequests log := by
  induction images generalizing log with
  | nil => rfl
  | cons image images ih =>
    have hs := pruneImage_quiet semver reg current image log
    unfold pruneImages
    split
    · next log1 heq => rw [heq] at hs; rw [ih]; exact hs
    · exact hs

theorem prunePatterns_quiet {V : Type} (semver : Semver V) (reg : Registry) (current : Str)
    (images : List Str) (log : List Request) :
    pruneRequests (prunePatterns semver reg current images log).2 = pruneRequests log := by
  induction images generalizing log with
  | nil => rfl
  | cons image images ih =>
    have hlist : pruneRequests (log ++ [Request.imageList image]) = pruneRequests log := by
      simp [pruneRequests, isPruneRequest]
    unfold prunePatterns
    split
    · next listed heq =>
      have hs := pruneImages_quiet semver reg current listed (log ++ [Request.imageList image])
      split
      · next log1 heq1 => rw [heq1] at hs; rw [ih, hs, hlist]
      · rw [hs, hlist]
    · rw [ih, hlist]

theorem pruneStale_quiet {V : Type} (semver : Semver V) (reg : Registry)
    (config : DockerConfig) (images : List Str) :
    pruneRequests (config.pruneStale semver reg images).2 = [] := by
  have hs := getActualImageVersionInternal_quiet reg [] config.getImage
  unfold DockerConfig.pruneStale
  split
  · unfold DockerConfig.GetActualImageVersion
    split
    · next log heq => rw [heq] at hs; exact hs
    · next e log heq => rw [heq] at hs; exact hs
    · next actual log heq => rw [heq] at hs; rw [prunePatterns_quiet]; exact hs
  · rfl

theorem deleteTags_free (reg : Registry) (f g : List Request → Option Str)
    (tags : List Str) (log : List Request) :
    deleteTags { reg with imagesPrune := f, containersPrune := g } tags log =
      deleteTags reg tags log := by
  induction tags generalizing log with
  | nil => rfl
  | cons tag tags ih => exact ih _

theorem pruneImage_free {V : Type} (semver : Semver V) (reg : Registry)
    (f g : List Request → Option Str) (current : Str) (image : ImageSummary)
    (log : List Request) :
    pruneImage semver { reg with imagesPrune := f, containersPrune := g } current image log =
      pruneImage semver reg current image log := by
  have hid : getActualImageVersionFromImageID
      { reg with imagesPrune := f, containersPrune := g } log image.ID =
        getActualImageVersionFromImageID reg log image.ID := rfl
  unfold pruneImage
  rw [hid]
  simp only [deleteTags_free]

theorem pruneImages_free {V : Type} (semver : Semver V) (reg : Registry)
    (f g : List Request → Option Str) (current : Str) (images : List ImageSummary)
    (log : List Request) :
    pruneImages semver { reg with imagesPrune := f, containersPrune := g } current images log =
      pruneImages semver reg current images log := by
  induction images generalizing log with
  | nil => rfl
  | cons image images ih =>
    unfold pruneImages
    rw [pruneImage_free]
    simp only [ih]

theorem prunePatterns_free {V : Type} (semver : Semver V) (reg : Registry)
    (f g : List Request → Option Str) (current : Str) (images : List Str)
    (log : List Request) :
    prunePatterns semver { reg with imagesPrune := f, containersPrune := g } current images log =
      prunePatterns semver reg current images log := by
  induction images generalizing log with
  | nil => rfl
  | cons image images ih =>
    unfold prunePatterns
    simp only [pruneImages_free, ih]

theorem pruneStale_free {V : Type} (semver : Semver V) (reg : Registry)
    (f g : List Request → Option Str) (config : DockerConfig) (images : List Str) :
    config.pruneStale semver { reg with imagesPrune := f, containersPrune := g } images =
      config.pruneStale semver reg images := by
  have hid : config.GetActualImageVersion
      { reg with imagesPrune := f, containersPrune := g } [] =
        config.GetActualImageVersion reg [] := rfl
  unfold DockerConfig.pruneStale
  rw [hid]
  simp only [prunePatterns_free]

/-! ## The claims -/

/-- C1 (the code departs from the claim): for the image `app` with the
one-character tag `1`, `GetImageName` returns `app`, not `app:1`; the test
`len(suffix) > 1` needs two bytes of tag. -/
theorem GetImageName_one_character_tag :
    DockerConfig.GetImageName { plainConfig with ImageTag := "1".toList } = "app".toList ∧
    DockerConfig.GetImageName { plainConfig with ImageTag := "1".toList } ≠ "app:1".toList ∧
    DockerConfig.GetImageName { plainConfig with ImageTag := "12".toList } = "app:12".toList := by
  decide

/-- C2 (the code departs from the claim): with the single option
`--name foo`, the argument vector of `Execute` holds the unsplit option
`--name foo` and, further on, its tokens `--name` and `foo`; with the option
`--privileged` it holds that token twice. -/
theorem Execute_options_raw_and_split :
    DockerConfig.buildArgs linuxHost { plainConfig with DockerOptions := ["--name foo".toList] } =
      some ["run".toList, "-v".toList, "/home:/src".toList, "-w".toList, "/src/u/proj".toList,
        "--name foo".toList, "--name".toList, "foo".toList,
        "-e".toList, "FOO".toList, "app".toList, "sh".toList] ∧
    DockerConfig.buildArgs linuxHost { plainConfig with DockerOptions := ["--privileged".toList] } =
      some ["run".toList, "-v".toList, "/home:/src".toList, "-w".toList, "/src/u/proj".toList,
        "--privileged".toList, "--privileged".toList, "--rm".toList,
        "-e".toList, "FOO".toList, "app".toList, "sh".toList] := by
  decide

/-- C5 (the code departs from the claim): the error `getCwd` returns is nil
on every host; when `os.Getwd` fails, or `filepath.EvalSymlinks` fails, it
returns the empty path with a nil error. -/
theorem getCwd_error_always_nil (host : Host) :
    (getCwd host).2 = none ∧
    getCwd { host with getwd := none } = ([], none) ∧
    getCwd { host with getwd := some "/w".toList, evalSymlinks := fun _ => none } = ([], none) := by
  refine ⟨?_, rfl, rfl⟩
  unfold getCwd
  cases host.getwd with
  | none => rfl
  | some cwd =>
    show (match host.evalSymlinks cwd with
      | none => (([] : Str), (none : Option Str))
      | some cwd => (ToSlash host cwd, none)).2 = none
    cases host.evalSymlinks cwd <;> rfl

/-- C4, counterexample: the runtime exits with status 0 after writing
`warning` to its error output; `Execute` returns 0, not 1. -/
theorem Execute_status_zero_with_stderr :
    (plainConfig.Execute linuxHost (worldExiting 0 "warning".toList)).map Prod.fst = some 0 := by
  decide

/-- C4, amended: if the before-commands succeeded, the runtime exited with a
status other than 0 and the captured error output is not empty, `Execute`
returns exit code 1, having started the before-commands and the runtime
only. -/
theorem Execute_stderr_failure (host : Host) (world : World) (config : DockerConfig)
    (dockerArgs : List Str) (status : Int) (stderr : Str)
    (hbuild : config.buildArgs host = some dockerArgs)
    (hbefore : (runCommands world config.RunBeforeCommands).1 = false)
    (hrun : world.docker dockerArgs = .exited status stderr)
    (hstatus : status ≠ 0) (hstderr : stderr ≠ []) :
    config.Execute host world =
      some (1, (runCommands world config.RunBeforeCommands).2 ++ [Event.docker dockerArgs]) := by
  have hlen : 0 < len stderr := len_pos_of_ne_nil stderr hstderr
  simp [DockerConfig.Execute, DockerConfig.run, hbuild, hbefore, hrun, hstatus, hlen]

theorem Execute_stderr_failure_witness :
    plainConfig.Execute linuxHost (worldExiting 2 "boom".toList) =
      some (1, (runCommands (worldExiting 2 "boom".toList) plainConfig.RunBeforeCommands).2 ++
        [Event.docker ["run".toList, "-v".toList, "/home:/src".toList, "-w".toList,
          "/src/u/proj".toList, "--rm".toList, "-e".toList, "FOO".toList, "app".toList,
          "sh".toList]]) :=
  Execute_stderr_failure linuxHost (worldExiting 2 "boom".toList) plainConfig _ 2 "boom".toList
    (by decide) (by decide) rfl (by decide) (by decide)

/-- C10: when the argument vector has been built and some command of
`RunBeforeCommands` fails, `Execute` returns exit code 1 and has started
exactly the before-commands up to the first failing one (that one left out
when no command could be made of it): no later before-command, not the
runtime, no after-command. -/
theorem Execute_before_command_failure (host : Host) (world : World) (config : DockerConfig)
    (dockerArgs : List Str)
    (hbuild : config.buildArgs host = some dockerArgs)
    (hfail : ∃ c ∈ config.RunBeforeCommands, world.script c ≠ .ok) :
    ∃ pre c post, config.RunBeforeCommands = pre ++ c :: post ∧
      (∀ x ∈ pre, world.script x = .ok) ∧ world.script c ≠ .ok ∧
      config.Execute host world =
        some (1, pre.map Event.script ++
          (if world.script c = .failed then [Event.script c] else [])) := by
  obtain ⟨pre, c, post, hsplit, hpre, hc⟩ :=
    exists_first_failure world config.RunBeforeCommands hfail
  refine ⟨pre, c, post, hsplit, hpre, hc, ?_⟩
  have hrun := runCommands_fail world pre c post hpre hc
  rw [← hsplit] at hrun
  simp [DockerConfig.Execute, DockerConfig.run, hbuild, hrun]

theorem Execute_before_command_failure_witness :
    ∃ pre c post,
      ["true".toList, "false".toList, "echo".toList] = pre ++ c :: post ∧
      (∀ x ∈ pre, worldFalseFails.script x = .ok) ∧ worldFalseFails.script c ≠ .ok ∧
      DockerConfig.Execute linuxHost worldFalseFails
          { plainConfig with
            RunBeforeCommands := ["true".toList, "false".toList, "echo".toList],
            RunAfterCommands := ["after".toList] } =
        some (1, pre.map Event.script ++
          (if worldFalseFails.script c = .failed then [Event.script c] else [])) :=
  Execute_before_command_failure linuxHost worldFalseFails
    { plainConfig with
      RunBeforeCommands := ["true".toList, "false".toList, "echo".toList],
      RunAfterCommands := ["after".toList] }
    ["run".toList, "-v".toList, "/home:/src".toList, "-w".toList, "/src/u/proj".toList,
      "--rm".toList, "-e".toList, "FOO".toList, "app".toList, "sh".toList]
    (by decide) ⟨"false".toList, by decide, by decide⟩

/-- C3, counterexample: with no option at all the argument vector ends with
the entry point `sh`, `--rm` standing before the `-e` pairs; and with the
option `--name foo --rm`, of which one token is `--name`, the vector holds
`--rm`. -/
theorem Execute_vector_does_not_end_with_rm :
    (∀ o ∈ plainConfig.DockerOptions, "--name".toList ∉ Split o ' ') ∧
    plainConfig.buildArgs linuxHost =
      some ["run".toList, "-v".toList, "/home:/src".toList, "-w".toList, "/src/u/proj".toList,
        "--rm".toList, "-e".toList, "FOO".toList, "app".toList, "sh".toList] ∧
    (plainConfig.buildArgs linuxHost).bind List.getLast? ≠ some "--rm".toList ∧
    "--name".toList ∈ Split "--name foo --rm".toList ' ' ∧
    (∃ args, DockerConfig.buildArgs linuxHost
        { plainConfig with DockerOptions := ["--name foo --rm".toList] } = some args ∧
      "--rm".toList ∈ args) := by
  refine ⟨by decide, by decide, by decide, by decide, ?_⟩
  exact ⟨["run".toList, "-v".toList, "/home:/src".toList, "-w".toList, "/src/u/proj".toList,
    "--name foo --rm".toList, "--name".toList, "foo".toList, "--rm".toList,
    "-e".toList, "FOO".toList, "app".toList, "sh".toList], by decide, by decide⟩

/-- C3, amended: in the argument vector `Execute` hands to the runtime, the
arguments up to and including the tokens of the options are followed by
`--rm`, then the `-e` pairs, the image name and the tokens of the entry
point, whenever no token of `DockerOptions` is exactly `--name` (and the
fixed Docker-socket fragment, when mounted, holds no `--name`); when some
token is exactly `--name`, `Execute` appends no `--rm` there: the tokens of
the options are followed at once by the `-e` pairs, the image name and the
entry point. -/
theorem Execute_remove_flag (host : Host) (config : DockerConfig) (dockerArgs : List Str)
    (hbuild : config.buildArgs host = some dockerArgs)
    (hmount : config.WithDockerMount = true → "--name".toList ∉ host.dockerMountArgs) :
    ∃ pre environ,
      config.argsBeforeRemove host = some (pre ++ config.optionTokens) ∧
      getEnviron host config.MountHomeDirectory = some environ ∧
      ((∀ o ∈ config.DockerOptions, "--name".toList ∉ Split o ' ') →
        dockerArgs = pre ++ config.optionTokens ++ ["--rm".toList] ++ environ ++
          [config.GetImageName] ++ Split config.EntryPoint ' ') ∧
      ((∃ o ∈ config.DockerOptions, "--name".toList ∈ Split o ' ') →
        dockerArgs = pre ++ config.optionTokens ++ environ ++
          [config.GetImageName] ++ Split config.EntryPoint ' ') := by
  unfold DockerConfig.buildArgs at hbuild
  cases hb : config.argsBeforeRemove host with
  | none => simp [hb] at hbuild
  | some before =>
    cases he : getEnviron host config.MountHomeDirectory with
    | none => simp [hb, he] at hbuild
    | some environ =>
      simp only [hb, he, Option.some.injEq] at hbuild
      obtain ⟨⟨pre, hpre⟩, hname⟩ := argsBeforeRemove_shape host config before hb hmount
      subst hpre
      refine ⟨pre, environ, rfl, rfl, ?_, ?_⟩
      · intro hno
        have hnot : "--name".toList ∉ pre ++ config.optionTokens := by
          intro hmem
          obtain ⟨o, ho, hin⟩ := hname.mp hmem
          exact hno o ho hin
        have hc : listContainsElement (pre ++ config.optionTokens) "--name".toList = false := by
          cases hl : listContainsElement (pre ++ config.optionTokens) "--name".toList with
          | false => rfl
          | true => exact absurd ((listContainsElement_iff _ _).mp hl) hnot
        rw [← hbuild]
        unfold removeArgs
        rw [hc]
        rfl
      · intro hsome
        have hc : listContainsElement (pre ++ config.optionTokens) "--name".toList = true :=
          (listContainsElement_iff _ _).mpr (hname.mpr hsome)
        rw [← hbuild]
        unfold removeArgs
        rw [hc]
        simp only [Bool.not_true, Bool.false_eq_true, if_false, List.append_nil]

theorem Execute_remove_flag_witness :
    ∃ pre environ,
      plainConfig.argsBeforeRemove linuxHost = some (pre ++ plainConfig.optionTokens) ∧
      getEnviron linuxHost plainConfig.MountHomeDirectory = some environ ∧
      ((∀ o ∈ plainConfig.DockerOptions, "--name".toList ∉ Split o ' ') →
        ["run".toList, "-v".toList, "/home:/src".toList, "-w".toList, "/src/u/proj".toList,
          "--rm".toList, "-e".toList, "FOO".toList, "app".toList, "sh".toList] =
        pre ++ plainConfig.optionTokens ++ ["--rm".toList] ++ environ ++
          [plainConfig.GetImageName] ++ Split plainConfig.EntryPoint ' ') ∧
      ((∃ o ∈ plainConfig.DockerOptions, "--name".toList ∈ Split o ' ') →
        ["run".toList, "-v".toList, "/home:/src".toList, "-w".toList, "/src/u/proj".toList,
          "--rm".toList, "-e".toList, "FOO".toList, "app".toList, "sh".toList] =
        pre ++ plainConfig.optionTokens ++ environ ++
          [plainConfig.GetImageName] ++ Split plainConfig.EntryPoint ' ') :=
  Execute_remove_flag linuxHost plainConfig
    ["run".toList, "-v".toList, "/home:/src".toList, "-w".toList, "/src/u/proj".toList,
      "--rm".toList, "-e".toList, "FOO".toList, "app".toList, "sh".toList]
    (by decide) (by decide)

/-- C6, counterexample: on a Windows host without legacy path translation, in
`C:/work/proj` (volume `C:`, root folder `work`) and with the mount point
`a\b`, the working directory `Execute` passes after `-w` is `/a/b/proj`, not
`/a\b/proj`: `filepath.ToSlash` rewrites the backslash of the mount point. -/
theorem Execute_mount_point_backslash :
    (windowsHost.windows = false ∨ windowsHost.dockerMachineName = []) ∧
    getCwd windowsHost = ("C:".toList ++ "/".toList ++ "work".toList ++ "/proj".toList, none) ∧
    VolumeName windowsHost "C:/work/proj".toList = "C:".toList ∧
    DockerConfig.buildArgs windowsHost { plainConfig with MountPoint := "a\\b".toList } =
      some ["run".toList, "-v".toList, "C:/work:/a\\b".toList, "-w".toList, "/a/b/proj".toList,
        "--rm".toList, "app".toList, "sh".toList] ∧
    "/a/b/proj".toList ≠ "/".toList ++ "a\\b".toList ++ "/proj".toList := by
  decide

/-- C6, amended: for every resolved working directory `D/r` followed by
`tail` (`D` the volume prefix, possibly empty; `r` the first path segment;
`tail` empty or `/rest`) and every mount point `m` that, on a Windows host,
holds no backslash, with legacy path translation off, the argument vector
`Execute` builds begins with `run`, then `-it` exactly when
`DockerInteractive` is set, then `-v`, `D/r:/m`, `-w`, `/m` followed by
`tail`: only the leading root folder is renamed, also when `r` occurs again
in `tail` or in `m`. -/
theorem Execute_mount_arguments (host : Host) (config : DockerConfig) (dockerArgs : List Str)
    (D r tail : Str)
    (hlegacy : host.windows = false ∨ host.dockerMachineName = [])
    (hcwd : getCwd host = (D ++ "/".toList ++ r ++ tail, none))
    (hvol : VolumeName host (D ++ "/".toList ++ r ++ tail) = D)
    (hr : '/' ∉ r) (htail : tail = [] ∨ ∃ rest, tail = '/' :: rest)
    (hback : host.windows = true → '\\' ∉ config.MountPoint)
    (hbuild : config.buildArgs host = some dockerArgs) :
    ∃ others, dockerArgs =
      ["run".toList] ++ (if config.DockerInteractive then ["-it".toList] else []) ++
      ["-v".toList, D ++ "/".toList ++ r ++ ":/".toList ++ config.MountPoint,
       "-w".toList, "/".toList ++ config.MountPoint ++ tail] ++ others := by
  have hconv : ∀ p, convertDrive host p = some p := by
    intro p
    unfold convertDrive
    rcases hlegacy with h | h <;> simp [h]
  have htrim : TrimPrefix (D ++ "/".toList ++ r ++ tail) (D ++ "/".toList) = r ++ tail := by
    rw [List.append_assoc (D ++ "/".toList) r tail]
    exact TrimPrefix_leading _ _
  have hslash : ToSlash host (config.MountPoint ++ tail) = config.MountPoint ++ tail := by
    apply ToSlash_of_no_backslash
    intro hw hmem
    rcases List.mem_append.mp hmem with h | h
    · exact hback hw h
    · have := getCwd_no_backslash host hw
      rw [hcwd] at this
      exact this (List.mem_append_right _ h)
  have hmountArgs : config.mountArgs host (D ++ "/".toList ++ r ++ tail) =
      some (["run".toList] ++ (if config.DockerInteractive then ["-it".toList] else []) ++
        ["-v".toList, D ++ "/".toList ++ r ++ ":/".toList ++ config.MountPoint,
         "-w".toList, "/".toList ++ config.MountPoint ++ tail]) := by
    unfold DockerConfig.mountArgs
    simp only [hvol, htrim, Split_head r tail '/' hr htail, ReplaceOnce_leading, hslash, hconv]
    cases config.DockerInteractive <;> simp [List.append_assoc]
  unfold DockerConfig.buildArgs at hbuild
  cases hb : config.argsBeforeRemove host with
  | none => simp [hb] at hbuild
  | some before =>
    cases he : getEnviron host config.MountHomeDirectory with
    | none => simp [hb, he] at hbuild
    | some environ =>
      simp only [hb, he, Option.some.injEq] at hbuild
      unfold DockerConfig.argsBeforeRemove at hb
      rw [hcwd] at hb
      simp only [hmountArgs] at hb
      cases hu : host.currentUser with
      | none => simp [hu] at hb
      | some currentUser =>
        cases hh : config.homeArgs host currentUser with
        | none => simp [hu, hh] at hb
        | some home =>
          cases ht : config.tempArgs host with
          | none => simp [hu, hh, ht] at hb
          | some temp =>
            simp only [hu, hh, ht, Option.some.injEq] at hb
            refine ⟨config.userArgs host currentUser ++ home ++ config.DockerOptions ++ temp ++
              config.optionTokens ++ removeArgs before ++ environ ++ [config.GetImageName] ++
              Split config.EntryPoint ' ', ?_⟩
            rw [← hbuild, ← hb]
            simp only [List.append_assoc]

theorem Execute_mount_arguments_witness :
    ∃ others,
      ["run".toList, "-v".toList, "/home:/src".toList, "-w".toList, "/src/u/proj".toList,
        "--rm".toList, "-e".toList, "FOO".toList, "app".toList, "sh".toList] =
      ["run".toList] ++ (if plainConfig.DockerInteractive then ["-it".toList] else []) ++
      ["-v".toList, [] ++ "/".toList ++ "home".toList ++ ":/".toList ++ plainConfig.MountPoint,
       "-w".toList, "/".toList ++ plainConfig.MountPoint ++ "/u/proj".toList] ++ others :=
  Execute_mount_arguments linuxHost plainConfig
    ["run".toList, "-v".toList, "/home:/src".toList, "-w".toList, "/src/u/proj".toList,
      "--rm".toList, "-e".toList, "FOO".toList, "app".toList, "sh".toList]
    [] "home".toList "/u/proj".toList
    (Or.inl rfl) (by decide) (by decide) (by decide) (Or.inr ⟨"u/proj".toList, by decide⟩)
    (by decide) (by decide)

/-- C7: on a host that is not Windows, for every environment listing whose
entries are NAME=VALUE with no `=` in NAME and no white space around NAME,
`getEnviron` returns, in listing order, the pair `-e`, NAME for exactly the
entries whose NAME is not empty, is none of the fourteen fixed names, and
does not contain `PATH` in upper case while VALUE begins with `/`; the
result is the same for both values of `noHome`. -/
theorem getEnviron_non_windows (host : Host) (noHome : Bool) (entries : List (Str × Str))
    (hw : host.windows = false)
    (henv : host.environ = entries.map (fun e => e.1 ++ "=".toList ++ e.2))
    (hnames : ∀ e ∈ entries, '=' ∉ e.1 ∧ TrimSpace e.1 = e.1) :
    getEnviron host noHome =
      some ((entries.filter (fun e =>
          decide (e.1 ≠ [] ∧ e.1 ∉ droppedNames ∧
            ¬ (Contains (ToUpper e.1) "PATH".toList = true ∧
               HasPrefix e.2 "/".toList = true)))).flatMap
        (fun e => ["-e".toList, e.1])) ∧
    getEnviron host noHome = getEnviron host (!noHome) := by
  refine ⟨?_, rfl⟩
  unfold getEnviron
  rw [henv, flatMap_filter]
  have hentry : ∀ e ∈ entries, getEnvironEntry host (e.1 ++ "=".toList ++ e.2) =
      some (if decide (e.1 ≠ [] ∧ e.1 ∉ droppedNames ∧
            ¬ (Contains (ToUpper e.1) "PATH".toList = true ∧
               HasPrefix e.2 "/".toList = true))
        then ["-e".toList, e.1] else []) := fun e he =>
    getEnvironEntry_non_windows host e.1 e.2 hw (hnames e he).1 (hnames e he).2
  have := getEnviron_fold host (fun e : Str × Str => e.1 ++ "=".toList ++ e.2) _ entries
    hentry []
  simpa using this

theorem getEnviron_non_windows_witness :
    getEnviron { linuxHost with environ :=
        ["FOO=bar".toList, "PATH=/usr/bin".toList, "HOME=/home/u".toList, "X=a=b".toList,
         "MANPATH=man".toList] } true =
      some (([("FOO".toList, "bar".toList), ("PATH".toList, "/usr/bin".toList),
          ("HOME".toList, "/home/u".toList), ("X".toList, "a=b".toList),
          ("MANPATH".toList, "man".toList)].filter (fun e =>
          decide (e.1 ≠ [] ∧ e.1 ∉ droppedNames ∧
            ¬ (Contains (ToUpper e.1) "PATH".toList = true ∧
               HasPrefix e.2 "/".toList = true)))).flatMap
        (fun e => ["-e".toList, e.1])) ∧
    getEnviron { linuxHost with environ :=
        ["FOO=bar".toList, "PATH=/usr/bin".toList, "HOME=/home/u".toList, "X=a=b".toList,
         "MANPATH=man".toList] } true =
      getEnviron { linuxHost with environ :=
        ["FOO=bar".toList, "PATH=/usr/bin".toList, "HOME=/home/u".toList, "X=a=b".toList,
         "MANPATH=man".toList] } (!true) :=
  getEnviron_non_windows _ true
    [("FOO".toList, "bar".toList), ("PATH".toList, "/usr/bin".toList),
      ("HOME".toList, "/home/u".toList), ("X".toList, "a=b".toList),
      ("MANPATH".toList, "man".toList)]
    rfl (by decide) (by decide)

/-- C8, counterexample: for V = `1.2`, `CheckVersionRange("1.2.9999", ">=1.2")`
returns an error: the version of the range lacks its patch component. -/
theorem CheckVersionRange_two_component_range :
    CheckVersionRange semver ("1.2".toList ++ ".9999".toList) (">=".toList ++ "1.2".toList)
      = none := by
  decide

/-- C8, amended: for every version string V = MAJOR.MINOR (each component a
string of digits without leading zero, of a value below 2^64),
`CheckVersionRange` normalizes V by appending `.9999` (whatever the range
and the semantic-versioning package, V and V + `.9999` give the same
result), and `CheckVersionRange(V + ".9999", ">=" + V + ".0")` returns true
with no error. -/
theorem CheckVersionRange_two_component_version (major minor : Str)
    (hmajor : major ≠ [] ∧ major.all Char.isDigit = true ∧
      (major.length > 1 → major.head? ≠ some '0') ∧ digitsValue major < 2 ^ 64)
    (hminor : minor ≠ [] ∧ minor.all Char.isDigit = true ∧
      (minor.length > 1 → minor.head? ≠ some '0') ∧ digitsValue minor < 2 ^ 64) :
    (∀ (W : Type) (sv : Semver W) (compare : Str),
      CheckVersionRange sv (major ++ ".".toList ++ minor) compare =
        CheckVersionRange sv (major ++ ".".toList ++ minor ++ ".9999".toList) compare) ∧
    CheckVersionRange semver (major ++ ".".toList ++ minor ++ ".9999".toList)
      (">=".toList ++ (major ++ ".".toList ++ minor ++ ".0".toList)) = some true := by
  obtain ⟨hne1, hd1, hz1, hb1⟩ := hmajor
  obtain ⟨hne2, hd2, hz2, hb2⟩ := hminor
  have hdot1 := digits_no_dot major hd1
  have hdot2 := digits_no_dot minor hd2
  have hcount1 : Count (major ++ ".".toList ++ minor) '.' = 1 := by
    show (major ++ ['.'] ++ minor).count '.' = 1
    simp [List.count_append, List.count_eq_zero.mpr hdot1, List.count_eq_zero.mpr hdot2]
  have hcount2 : Count (major ++ ".".toList ++ minor ++ ".9999".toList) '.' ≠ 1 := by
    show (major ++ ['.'] ++ minor ++ ['.', '9', '9', '9', '9']).count '.' ≠ 1
    simp [List.count_append, List.count_eq_zero.mpr hdot1, List.count_eq_zero.mpr hdot2,
      List.count_cons]
  have hv1 := versionNumber_of_digits major hne1 hd1 hz1 hb1
  have hv2 := versionNumber_of_digits minor hne2 hd2 hz2 hb2
  have hparse9 : parseVersion (major ++ ".".toList ++ minor ++ ".9999".toList) =
      some ⟨digitsValue major, digitsValue minor, 9999⟩ := by
    have e : major ++ ".".toList ++ minor ++ ".9999".toList =
        major ++ ".".toList ++ minor ++ ".".toList ++ "9999".toList := by
      simp [List.append_assoc]
    rw [e]
    exact parseVersion_three major minor "9999".toList _ _ 9999 hdot1 hdot2 (by decide) hv1 hv2
      (by decide)
  have hparse0 : parseVersion (major ++ ".".toList ++ minor ++ ".0".toList) =
      some ⟨digitsValue major, digitsValue minor, 0⟩ := by
    have e : major ++ ".".toList ++ minor ++ ".0".toList =
        major ++ ".".toList ++ minor ++ ".".toList ++ "0".toList := by
      simp [List.append_assoc]
    rw [e]
    exact parseVersion_three major minor "0".toList _ _ 0 hdot1 hdot2 (by decide) hv1 hv2
      (by decide)
  constructor
  · intro W sv compare
    unfold CheckVersionRange
    simp only [hcount1, hcount2, if_true, if_false]
  · obtain ⟨c, cs, hcs⟩ := List.exists_cons_of_ne_nil hne1
    have hc : c.isDigit = true := by
      have := List.all_eq_true.mp hd1 c (by rw [hcs]; exact List.mem_cons_self _ _)
      exact this
    have hrange := parseRange_atLeast (major ++ ".".toList ++ minor ++ ".0".toList)
      ⟨digitsValue major, digitsValue minor, 0⟩ c (cs ++ ".".toList ++ minor ++ ".0".toList)
      (by rw [hcs]; simp [List.append_assoc]) hc hparse0
    unfold CheckVersionRange
    simp only [hcount2, if_false, semver, hparse9, hrange]
    simp only [Version.compare, ne_eq, not_true_eq_false, if_false]
    decide

theorem CheckVersionRange_two_component_version_witness :
    (∀ (W : Type) (sv : Semver W) (compare : Str),
      CheckVersionRange sv ("1".toList ++ ".".toList ++ "25".toList) compare =
        CheckVersionRange sv ("1".toList ++ ".".toList ++ "25".toList ++ ".9999".toList)
          compare) ∧
    CheckVersionRange semver ("1".toList ++ ".".toList ++ "25".toList ++ ".9999".toList)
      (">=".toList ++ ("1".toList ++ ".".toList ++ "25".toList ++ ".0".toList)) = some true :=
  CheckVersionRange_two_component_version "1".toList "25".toList (by decide) (by decide)

/-- C9: for an image whose embedded version marker is empty, the version
`prune` derives from the repository tags is at least as long (in bytes, as
`len` counts) as the `version` group `reImage` captures from any tag; it is
empty exactly when no tag yields a version; otherwise it is the version of a
tag before which every tag yields a strictly shorter one, so the earliest
of the longest wins; for the tags `app:1.2`, `app:1.10` it is `1.10`. -/
theorem pruneActualVersion_longest (repoTags : List Str) :
    (∀ t ∈ repoTags, len (tagVersion t) ≤ len (pruneActualVersion [] repoTags)) ∧
    (pruneActualVersion [] repoTags = [] ↔ ∀ t ∈ repoTags, tagVersion t = []) ∧
    (pruneActualVersion [] repoTags = [] ∨
      ∃ pre t post, repoTags = pre ++ t :: post ∧
        pruneActualVersion [] repoTags = tagVersion t ∧
        ∀ u ∈ pre, len (tagVersion u) < len (tagVersion t)) ∧
    tagVersion "app:1.2".toList = "1.2".toList ∧
    tagVersion "app:1.10".toList = "1.10".toList ∧
    pruneActualVersion [] ["app:1.2".toList, "app:1.10".toList] = "1.10".toList := by
  have hdef : pruneActualVersion [] repoTags =
      repoTags.foldl (fun actual tag =>
        if tagVersion tag ≠ [] then
          (if len (tagVersion tag) > len actual then tagVersion tag else actual)
        else actual) [] := by
    simp [pruneActualVersion]
  obtain ⟨hbound, hshape⟩ := foldl_longest tagVersion repoTags
  rw [← hdef] at hbound hshape
  refine ⟨hbound, ⟨?_, ?_⟩, hshape, by decide, by decide, by decide⟩
  · intro hnil t ht
    have h := hbound t ht
    rw [hnil, len_nil] at h
    by_contra hne
    have := len_pos_of_ne_nil _ hne
    omega
  · intro hall
    rcases hshape with h | ⟨pre, t, post, hsplit, hr, _⟩
    · exact h
    · rw [hr]
      exact hall t (by rw [hsplit]; simp)

/-- C11: when legacy path translation is off (the host is not Windows, or
`DOCKER_MACHINE_NAME` is empty), the converter `getPathConversionFunction`
returns gives back every path unchanged, `/c/work/proj` for one; when it is
on, a path made of a one-byte character X, a colon and `rest` goes to `/`,
the upper case of X and `rest`, `c:/work` to `/C/work`.  The converter is the
one `Execute` applies as `convertDrive`. -/
theorem getPathConversionFunction_converts (host : Host) :
    ((host.windows = false ∨ host.dockerMachineName = []) →
      ∀ path, getPathConversionFunction host path = some path) ∧
    ((host.windows = true ∧ host.dockerMachineName ≠ []) →
      ∀ (X : Char) (rest : Str), X.utf8Size = 1 →
        getPathConversionFunction host (X :: ':' :: rest) =
          some ("/".toList ++ ToUpper [X] ++ rest)) ∧
    getPathConversionFunction linuxHost "/c/work/proj".toList = some "/c/work/proj".toList ∧
    getPathConversionFunction windowsHost "/c/work/proj".toList = some "/c/work/proj".toList ∧
    getPathConversionFunction legacyHost "c:/work".toList = some "/C/work".toList ∧
    (∀ path, convertDrive host path = getPathConversionFunction host path) := by
  refine ⟨?_, ?_, by decide, by decide, by decide, ?_⟩
  · intro hoff path
    unfold getPathConversionFunction
    rcases hoff with h | h <;> simp [h]
  · rintro ⟨hw, hm⟩ X rest hX
    have hcolon : (':' : Char).utf8Size = 1 := by decide
    unfold getPathConversionFunction
    simp [hw, hm, hX, hcolon]
  · intro path
    unfold convertDrive getPathConversionFunction
    split_ifs <;> rfl

/-- C12: for every environment listing, the entries `getEnviron` retains are
all retained again when the listing is cut down to them: `getEnviron` on the
retained entries returns the pair `-e`, name of each of them, in order, and
that is the result of `getEnviron` on the whole listing whenever that one
returns. -/
theorem getEnviron_filter_idempotent (host : Host) (noHome : Bool) :
    (host.environ.filter (retains host)).filter
        (retains { host with environ := host.environ.filter (retains host) }) =
      host.environ.filter (retains host) ∧
    getEnviron { host with environ := host.environ.filter (retains host) } noHome =
      some ((host.environ.filter (retains host)).flatMap
        (fun env => ["-e".toList, (Split env '=').headD []])) ∧
    (∀ result, getEnviron host noHome = some result →
      getEnviron { host with environ := host.environ.filter (retains host) } noHome =
        some result) := by
  have hsame : ∀ env, getEnvironEntry
      { host with environ := host.environ.filter (retains host) } env =
        getEnvironEntry host env := fun _ => rfl
  have hret : retains { host with environ := host.environ.filter (retains host) } =
      retains host := rfl
  have hkept : getEnviron { host with environ := host.environ.filter (retains host) } noHome =
      some ((host.environ.filter (retains host)).flatMap
        (fun env => ["-e".toList, (Split env '=').headD []])) := by
    have := getEnviron_fold host (fun env : Str => env)
      (fun env => ["-e".toList, (Split env '=').headD []])
      (host.environ.filter (retains host))
      (fun a ha => (retains_iff host a).mp (List.mem_filter.mp ha).2) []
    unfold getEnviron
    simp only [hsame]
    simpa using this
  refine ⟨?_, hkept, ?_⟩
  · rw [hret, List.filter_filter]
    simp
  · intro result hres
    unfold getEnviron at hres
    rw [hkept, getEnviron_fold_retained host host.environ [] result hres]
    simp

/-- C13, counterexample: with the pattern `app`, when the inspection of the
image of the profile fails (reading its current version), and when the
inspection of a listed image fails, `prune` returns that error and has sent
neither of the two removal requests. -/
theorem prune_returns_before_removal :
    DockerConfig.prune semver inspectFailsRegistry plainConfig ["app".toList] =
      (some (some "no such image".toList),
        [Request.imageList "app:latest".toList, Request.imageInspect "new".toList]) ∧
    DockerConfig.prune semver listedInspectFailsRegistry plainConfig ["app".toList] =
      (some (some "no such image".toList),
        [Request.imageList "app:latest".toList, Request.imageInspect "new".toList,
         Request.imageList "app".toList, Request.imageInspect "old".toList]) := by
  decide

/-- C13, amended: for every pattern list and every behaviour of the daemon,
whenever `prune` returns a nil error, as it does for the empty pattern list
once a client is available, it has requested the removal of dangling images
and then that of stopped containers, once each, as its two last requests;
whenever it returns an error, as it does when reading the current image
version of the profile fails, it has sent neither request; and the replies
to the two removal requests change neither what `prune` returns nor what it
requests.  With the pattern `app` on a daemon holding a stale image, the
requests are those listed. -/
theorem prune_removal_requests {V : Type} (sv : Semver V) (reg : Registry)
    (config : DockerConfig) (images : List Str) :
    (∀ log, config.prune sv reg images = (some none, log) →
      ∃ pre, log = pre ++ [Request.imagesPrune, Request.containersPrune] ∧
        Request.imagesPrune ∉ pre ∧ Request.containersPrune ∉ pre) ∧
    (∀ e log, config.prune sv reg images = (some (some e), log) →
      Request.imagesPrune ∉ log ∧ Request.containersPrune ∉ log) ∧
    (reg.client = none →
      config.prune sv reg [] = (some none, [Request.imagesPrune, Request.containersPrune])) ∧
    (∀ e log, reg.client = none → images ≠ [] →
      config.GetActualImageVersion reg [] = (some (.error e), log) →
      config.prune sv reg images = (some (some e), log)) ∧
    (∀ f g : List Request → Option Str,
      config.prune sv { reg with imagesPrune := f, containersPrune := g } images =
        config.prune sv reg images) ∧
    DockerConfig.prune semver staleRegistry plainConfig ["app".toList] =
      (some none,
        [Request.imageList "app:latest".toList, Request.imageInspect "new".toList,
         Request.imageList "app".toList, Request.imageInspect "old".toList,
         Request.imageRemove "app:1.2".toList,
         Request.imagesPrune, Request.containersPrune]) := by
  have hquiet := pruneStale_quiet sv reg config images
  refine ⟨?_, ?_, ?_, ?_, ?_, by decide⟩
  · intro log h
    unfold DockerConfig.prune at h
    cases hc : reg.client with
    | some e => rw [hc] at h; cases h
    | none =>
      rw [hc] at h
      rcases hst : config.pruneStale sv reg images with ⟨r, log0⟩
      rw [hst] at h hquiet
      rcases r with _ | _ | e
      · cases h
      · simp only [Prod.mk.injEq, true_and] at h
        refine ⟨log0, ?_, not_mem_of_pruneRequests_nil log0 hquiet⟩
        rw [← h, List.append_assoc]
        rfl
      · cases h
  · intro e log h
    unfold DockerConfig.prune at h
    cases hc : reg.client with
    | some e0 =>
      rw [hc] at h
      simp only [Prod.mk.injEq] at h
      rw [← h.2]
      simp
    | none =>
      rw [hc] at h
      rcases hst : config.pruneStale sv reg images with ⟨r, log0⟩
      rw [hst] at h hquiet
      rcases r with _ | _ | e1
      · cases h
      · cases h
      · simp only [Prod.mk.injEq] at h
        rw [← h.2]
        exact not_mem_of_pruneRequests_nil log0 hquiet
  · intro hc
    unfold DockerConfig.prune
    rw [hc]
    rfl
  · intro e log hc hne hver
    have hlen : images.length > 0 := List.length_pos.mpr hne
    unfold DockerConfig.prune
    rw [hc]
    have hst : config.pruneStale sv reg images = (some (some e), log) := by
      unfold DockerConfig.pruneStale
      rw [if_pos hlen, hver]
    rw [hst]
  · intro f g
    unfold DockerConfig.prune
    rw [pruneStale_free]

end Runcontainer
